import Mathlib

/-!
Verification of the Count-Min Sketch with Top-N side index
(`statistics/cmsketch.go`, two source variants: the `topNHelper`-based
builder and the `BuildTopN`-based builder with the codec).

The Go code is shallowly embedded: `uint64` and `uint32` arithmetic is
`Nat` arithmetic reduced modulo `M64 = 2^64` resp. `M32 = 2^32` at every
point where the Go code can wrap; byte strings are `List Nat`; the
128-bit murmur3 hash is an explicit function parameter `hash` (its value
is irrelevant to every property below, only the `(h1, h2)` pair it
produces is used, exactly as in the source); Go maps keyed by `h1` are
association lists; Go panics (index out of range, division by zero) are
modelled by `Option`.
-/

namespace CMS

/-- `2^32`, the modulus of Go `uint32` arithmetic. -/
def M32 : Nat := 2 ^ 32

/-- `2^64`, the modulus of Go `uint64` arithmetic. -/
def M64 : Nat := 2 ^ 64

/-- Go unsigned subtraction `a - b` at modulus `m` (wrap-around). -/
def wsub (m a b : Nat) : Nat := (a % m + (m - b % m)) % m

/-- For in-range operands without underflow, wrapping subtraction is
plain subtraction. -/
theorem wsub_eq_sub {m a b : Nat} (hba : b ≤ a) (ham : a < m) :
    wsub m a b = a - b := by
  unfold wsub
  have hbm : b < m := Nat.lt_of_le_of_lt hba ham
  rw [Nat.mod_eq_of_lt ham, Nat.mod_eq_of_lt hbm]
  have h1 : a + (m - b) = m + (a - b) := by omega
  rw [h1, Nat.add_mod_left, Nat.mod_eq_of_lt (by omega)]

/-- Binary minimum on `Nat` (explicit `if` form, kept transparent for
arithmetic automation). -/
def nmin (a b : Nat) : Nat := if a ≤ b then a else b

/-- Binary maximum on `Nat` (explicit `if` form). -/
def nmax (a b : Nat) : Nat := if a ≤ b then b else a

/-- Column of row `i` for hash pair `(h1, h2)`:
`(h1 + h2*uint64(i)) % uint64(width)` in 64-bit arithmetic. -/
def cellIndex (h1 h2 i w : Nat) : Nat := ((h1 + h2 * i) % M64) % w

/-- A Top-N record (`dataCount` in variant A, `cmscount` in variant B). -/
structure DataCount where
  h1 : Nat
  h2 : Nat
  data : List Nat
  count : Nat
deriving DecidableEq

/-- The Top-N index: a Go map from `h1` to a bucket of records,
embedded as an association list. -/
abbrev TopNMap := List (Nat × List DataCount)

/-- The sketch (`CMSketch`).  `topN = none` models a nil Go map. -/
structure CMSketch where
  depth : Nat
  width : Nat
  count : Nat
  defaultValue : Nat
  table : List (List Nat)
  topN : Option TopNMap
deriving DecidableEq

/-- `NewCMSketch(d, w)`: a `d × w` table of zero counters. -/
def NewCMSketch (d w : Nat) : CMSketch :=
  { depth := d, width := w, count := 0, defaultValue := 0,
    table := List.replicate d (List.replicate w 0), topN := none }

/-- Go map read `m[h1]` (missing key yields the empty bucket, as a Go
map read of a missing key yields the zero value). -/
def bucketOf : TopNMap → Nat → List DataCount
  | [], _ => []
  | (k, v) :: rest, h1 => if k = h1 then v else bucketOf rest h1

/-- Linear probe of a bucket on `(h2, data)`; returns the stored count. -/
def probeBucket : List DataCount → Nat → List Nat → Option Nat
  | [], _, _ => none
  | e :: rest, h2, d =>
    if e.h2 = h2 ∧ e.data = d then some e.count else probeBucket rest h2 d

/-- `queryTopN` (identical logic in both variants): look `d` up in the
Top-N index. -/
def queryTopN (c : CMSketch) (h1 h2 : Nat) (d : List Nat) : Option Nat :=
  match c.topN with
  | none => none
  | some m => probeBucket (bucketOf m h1) h2 d

/-- Variant A `updateTopNWithDelta`: the Go loop iterates the bucket by
value (`for _, cnt := range c.topN[h1]`), so `cnt.count += delta`
mutates a copy of the slice element and the stored record is left
unchanged.  The function reports whether a matching record was found
but the sketch state is returned as it was. -/
def updateTopNWithDelta (c : CMSketch) (h1 h2 delta : Nat) (d : List Nat) :
    CMSketch × Bool :=
  match c.topN with
  | none => (c, false)
  | some m =>
    match probeBucket (bucketOf m h1) h2 d with
    | some _ =>
      -- the Go increment `cnt.count += delta` targets the range copy
      let _ := delta
      (c, true)
    | none => (c, false)

/-- Increment a bucket entry in place (first `(h2, data)` match). -/
def bumpBucket : List DataCount → Nat → List Nat → Nat → List DataCount
  | [], _, _, _ => []
  | e :: rest, h2, d, delta =>
    if e.h2 = h2 ∧ e.data = d then
      { e with count := (e.count + delta) % M64 } :: rest
    else e :: bumpBucket rest h2 d delta

/-- Rewrite the bucket of key `h1` in place. -/
def setBucket : TopNMap → Nat → List DataCount → TopNMap
  | [], _, _ => []
  | (k, v) :: rest, h1, v' =>
    if k = h1 then (k, v') :: rest else (k, v) :: setBucket rest h1 v'

/-- Variant B `queryAddTopN`: `cnt[k].count += count` writes through the
slice, so the stored record really is incremented; returns the count
after the increment. -/
def queryAddTopN (c : CMSketch) (h1 h2 delta : Nat) (d : List Nat) :
    CMSketch × Option Nat :=
  match c.topN with
  | none => (c, none)
  | some m =>
    match probeBucket (bucketOf m h1) h2 d with
    | some cnt =>
      ({ c with topN := some (setBucket m h1 (bumpBucket (bucketOf m h1) h2 d delta)) },
       some ((cnt + delta) % M64))
    | none => (c, none)

/-- One cell update `table[i][j] += uint32(n)` (wrapping 32-bit add). -/
def setCell (row : List Nat) (j n : Nat) : List Nat :=
  row.set j ((row.getD j 0 + n) % M32)

/-- Add `uint32(n)` to cell `(i, j_i)` of every row, `j_i` the hashed
column of row `i`. -/
def tableAdd (h1 h2 w n : Nat) : Nat → List (List Nat) → List (List Nat)
  | _, [] => []
  | i, row :: rest =>
    setCell row (cellIndex h1 h2 i w) n :: tableAdd h1 h2 w n (i + 1) rest

/-- Route delta `n` to the counting table: `count += n` and one wrapped
cell increment per row. -/
def addToTable (c : CMSketch) (h1 h2 n : Nat) : CMSketch :=
  { c with count := (c.count + n) % M64,
           table := tableAdd h1 h2 c.width n 0 c.table }

/-- Variant A `updateBytesWithDelta`: Top-N first (via the lossy
`updateTopNWithDelta`), otherwise the table. -/
def updateBytesWithDelta (hash : List Nat → Nat × Nat) (c : CMSketch)
    (d : List Nat) (n : Nat) : CMSketch :=
  let (h1, h2) := hash d
  let (c', found) := updateTopNWithDelta c h1 h2 n d
  if found then c' else addToTable c' h1 h2 n

/-- Variant B `InsertBytesN`: Top-N first (via the in-place
`queryAddTopN`), otherwise the table. -/
def insertBytesN (hash : List Nat → Nat × Nat) (c : CMSketch)
    (d : List Nat) (n : Nat) : CMSketch :=
  let (h1, h2) := hash d
  let (c', r) := queryAddTopN c h1 h2 n d
  match r with
  | some _ => c'
  | none => addToTable c h1 h2 n

/-- `InsertBytes` (both variants): delta 1. -/
def insertBytes (hash : List Nat → Nat × Nat) (c : CMSketch) (d : List Nat) :
    CMSketch :=
  insertBytesN hash c d 1

/-- The per-row loop of `queryHashValue`.  Walks the table rows from row
index `i` carrying the running minimum `mn` (initialised to
`math.MaxUint32`); produces the noise-corrected row values and the final
minimum.  `none` models the Go panics: a cell read out of range, or the
division by zero in the noise term when `width = 1`. -/
def queryRows (count w h1 h2 : Nat) : Nat → Nat → List (List Nat) →
    Option (List Nat × Nat)
  | _, mn, [] => some ([], mn)
  | i, mn, row :: rest =>
    match row.get? (cellIndex h1 h2 i w) with
    | none => none
    | some cell =>
      let mn' := if mn > cell then cell else mn
      if w - 1 = 0 then none
      else
        let noise := wsub M64 count cell / (w - 1)
        let v := if cell < noise then 0 else wsub M32 cell noise
        match queryRows count w h1 h2 (i + 1) mn' rest with
        | none => none
        | some (vs, mnf) => some (v :: vs, mnf)

/-- Variant A `queryHashValue`.  After the row loop: pad `vals` to
length `depth` (the Go slice is allocated with `make([]uint32, depth)`
and only the first `len(table)` entries are written), sort ascending,
take `vals[(d-1)/2] + (vals[d/2]-vals[(d-1)/2])/2` in 32-bit arithmetic,
cap by the minimum cell, then fall back to `defaultValue` when the
result is implausibly small (`considerDefVal`). -/
def queryHashValue (c : CMSketch) (h1 h2 : Nat) : Option Nat :=
  if c.width = 0 then none
  else if c.depth < c.table.length then none
  else if c.depth = 0 then none
  else
    match queryRows c.count c.width h1 h2 0 (M32 - 1) c.table with
    | none => none
    | some (vs, mn) =>
      let vals := (vs ++ List.replicate (c.depth - c.table.length) 0).insertionSort (· ≤ ·)
      let lo := vals.getD ((c.depth - 1) / 2) 0
      let hi := vals.getD (c.depth / 2) 0
      let res := (lo + wsub M32 hi lo / 2) % M32
      let res' := if res > mn then mn else res
      if res' < 2 * (c.count / c.width) % M64 ∧ 0 < c.defaultValue then
        some c.defaultValue
      else some res'

/-- `QueryBytes` (both variants): exact Top-N hit, else the table-side
estimate. -/
def QueryBytes (hash : List Nat → Nat × Nat) (c : CMSketch) (d : List Nat) :
    Option Nat :=
  match queryTopN c (hash d).1 (hash d).2 d with
  | some cnt => some cnt
  | none => queryHashValue c (hash d).1 (hash d).2

/-- The two merge failures. -/
inductive MergeError where
  | dimensionMismatch
  | topNNotMergeable
deriving DecidableEq

/-- Pointwise wrapped 32-bit sum of two equally shaped rows. -/
def addRows : List Nat → List Nat → List Nat
  | [], _ => []
  | _ :: _, [] => []
  | a :: as_, b :: bs => (a + b) % M32 :: addRows as_ bs

/-- Pointwise sum of two equally shaped tables. -/
def addTables : List (List Nat) → List (List Nat) → List (List Nat)
  | [], _ => []
  | _ :: _, [] => []
  | r :: rs, s :: ss => addRows r s :: addTables rs ss

/-- `MergeCMSketch` (identical in both variants).  Returns the receiver
after the call together with the error, mirroring the Go method that
mutates its receiver only after both guards pass. -/
def mergeCMSketch (c rc : CMSketch) : CMSketch × Option MergeError :=
  if c.depth ≠ rc.depth ∨ c.width ≠ rc.width then
    (c, some MergeError.dimensionMismatch)
  else if c.topN ≠ none ∨ rc.topN ≠ none then
    (c, some MergeError.topNNotMergeable)
  else
    ({ c with count := (c.count + rc.count) % M64,
              table := addTables c.table rc.table }, none)

/-- Cell `(i, j)` of a sketch (0 outside the table, as in a query that
would panic; theorems only use in-range indices). -/
def getCell (c : CMSketch) (i j : Nat) : Nat := (c.table.getD i []).getD j 0

/-- A concrete stand-in for the murmur3 hash; the embedding is
parametric in the hash and the claims hold for every hash function. -/
def testHash (d : List Nat) : Nat × Nat := (d.headD 0, d.length)

theorem getD_mem {l : List Nat} {i : Nat} (h : i < l.length) :
    l.getD i 0 ∈ l := by
  rw [List.getD_eq_getElem?_getD, List.getElem?_eq_getElem h]
  exact List.getElem_mem h

theorem getD_mem_list {l : List (List Nat)} {i : Nat} (h : i < l.length) :
    l.getD i [] ∈ l := by
  rw [List.getD_eq_getElem?_getD, List.getElem?_eq_getElem h]
  exact List.getElem_mem h

theorem addRows_getD (as_ bs : List Nat) (j : Nat)
    (ha : j < as_.length) (hb : j < bs.length) :
    (addRows as_ bs).getD j 0 = (as_.getD j 0 + bs.getD j 0) % M32 := by
  induction as_ generalizing bs j with
  | nil => simp at ha
  | cons a as_ ih =>
    cases bs with
    | nil => simp at hb
    | cons b bs =>
      cases j with
      | zero => simp [addRows]
      | succ j =>
        simp only [addRows, List.getD_cons_succ]
        exact ih bs j (by simpa using ha) (by simpa using hb)

theorem addTables_getD (t1 t2 : List (List Nat)) (i j : Nat)
    (h1 : i < t1.length) (h2 : i < t2.length)
    (hj1 : j < (t1.getD i []).length) (hj2 : j < (t2.getD i []).length) :
    ((addTables t1 t2).getD i []).getD j 0
      = ((t1.getD i []).getD j 0 + (t2.getD i []).getD j 0) % M32 := by
  induction t1 generalizing t2 i with
  | nil => simp at h1
  | cons r rs ih =>
    cases t2 with
    | nil => simp at h2
    | cons s ss =>
      cases i with
      | zero =>
        simp only [addTables, List.getD_cons_zero] at *
        exact addRows_getD r s j hj1 hj2
      | succ i =>
        simp only [addTables, List.getD_cons_succ] at *
        exact ih ss i (by simpa using h1) (by simpa using h2) hj1 hj2

/-- Claim C6: `MergeCMSketch` fails with `DimensionMismatch` exactly
when the `(depth, width)` pairs differ, with `TopNNotMergeable` exactly
when the dimensions agree but either operand carries a Top-N index; in
every error case the receiver is returned unchanged, and on success the
count is the wrapped 64-bit sum and every cell the wrapped 32-bit sum
of the corresponding cells. -/
theorem c6_merge_characterization (c rc : CMSketch)
    (hcd : c.table.length = c.depth) (hrd : rc.table.length = rc.depth)
    (hcw : ∀ row ∈ c.table, row.length = c.width)
    (hrw : ∀ row ∈ rc.table, row.length = rc.width) :
    ((mergeCMSketch c rc).2 = some MergeError.dimensionMismatch ↔
      (c.depth ≠ rc.depth ∨ c.width ≠ rc.width)) ∧
    ((mergeCMSketch c rc).2 = some MergeError.topNNotMergeable ↔
      (c.depth = rc.depth ∧ c.width = rc.width ∧
        (c.topN ≠ none ∨ rc.topN ≠ none))) ∧
    (∀ e, (mergeCMSketch c rc).2 = some e → (mergeCMSketch c rc).1 = c) ∧
    ((mergeCMSketch c rc).2 = none →
      (mergeCMSketch c rc).1.count = (c.count + rc.count) % M64 ∧
      (mergeCMSketch c rc).1.depth = c.depth ∧
      (mergeCMSketch c rc).1.width = c.width ∧
      (mergeCMSketch c rc).1.defaultValue = c.defaultValue ∧
      (mergeCMSketch c rc).1.topN = none ∧
      ∀ i j, i < c.depth → j < c.width →
        getCell (mergeCMSketch c rc).1 i j
          = (getCell c i j + getCell rc i j) % M32) := by
  by_cases hdep : c.depth = rc.depth
  · by_cases hwid : c.width = rc.width
    · have hdim : ¬(c.depth ≠ rc.depth ∨ c.width ≠ rc.width) := by
        simp [hdep, hwid]
      by_cases htc : c.topN = none
      · by_cases htr : rc.topN = none
        · have htn : ¬(c.topN ≠ none ∨ rc.topN ≠ none) := by simp [htc, htr]
          simp only [mergeCMSketch, if_neg hdim, if_neg htn]
          refine ⟨by simp [hdep, hwid], by simp [htc, htr], by simp, ?_⟩
          intro _
          refine ⟨by simp, by simp, by simp, by simp, by simp [htc], ?_⟩
          intro i j hi hj
          have hi1 : i < c.table.length := by omega
          have hi2 : i < rc.table.length := by omega
          have hj1 : j < (c.table.getD i []).length := by
            rw [hcw _ (getD_mem_list hi1)]; exact hj
          have hj2 : j < (rc.table.getD i []).length := by
            rw [hrw _ (getD_mem_list hi2)]
            omega
          simpa [getCell] using addTables_getD c.table rc.table i j hi1 hi2 hj1 hj2
        · have htn : c.topN ≠ none ∨ rc.topN ≠ none := Or.inr htr
          simp only [mergeCMSketch, if_neg hdim, if_pos htn]
          exact ⟨by simp [hdep, hwid], by simp [hdep, hwid, htr],
            by simp, by simp⟩
      · have htn : c.topN ≠ none ∨ rc.topN ≠ none := Or.inl htc
        simp only [mergeCMSketch, if_neg hdim, if_pos htn]
        exact ⟨by simp [hdep, hwid], by simp [hdep, hwid, htc],
          by simp, by simp⟩
    · have hdim : c.depth ≠ rc.depth ∨ c.width ≠ rc.width := Or.inr hwid
      simp only [mergeCMSketch, if_pos hdim]
      exact ⟨by simp [hwid], by simp [hwid], by simp, by simp⟩
  · have hdim : c.depth ≠ rc.depth ∨ c.width ≠ rc.width := Or.inl hdep
    simp only [mergeCMSketch, if_pos hdim]
    exact ⟨by simp [hdep], by simp [hdep], by simp, by simp⟩

/-- Witness for C6: a dimension mismatch, a Top-N rejection and a
successful merge, each obtained from `c6_merge_characterization` at
concrete sketches. -/
theorem c6_merge_witness :
    (mergeCMSketch (NewCMSketch 2 3) (NewCMSketch 2 2)).2
      = some MergeError.dimensionMismatch ∧
    (mergeCMSketch (NewCMSketch 1 2) (NewCMSketch 1 2)).2 = none ∧
    (mergeCMSketch (NewCMSketch 1 2) (NewCMSketch 1 2)).1.count = 0 := by
  refine ⟨?_, ?_, ?_⟩
  · exact (c6_merge_characterization (NewCMSketch 2 3) (NewCMSketch 2 2)
      (by decide) (by decide) (by decide) (by decide)).1.mpr (by decide)
  · decide
  · have h := (c6_merge_characterization (NewCMSketch 1 2) (NewCMSketch 1 2)
      (by decide) (by decide) (by decide) (by decide))
    have hnone : (mergeCMSketch (NewCMSketch 1 2) (NewCMSketch 1 2)).2 = none := by
      decide
    simpa using (h.2.2.2 hnone).1

/-- The sketch used in the Claim C2 analysis: a Top-N index holding the
key `[7]` with exact stored count 5 (hash pair `(7, 1)` under
`testHash`), an all-zero `1 × 2` table and `count = 0`. -/
def c2Sketch : CMSketch :=
  { depth := 1, width := 2, count := 0, defaultValue := 0,
    table := [[0, 0]], topN := some [(7, [⟨7, 1, [7], 5⟩])] }

/-- Claim C2, settled against the code at the failing input: inserting
the Top-N member `[7]` with delta 3 through variant A's
`updateBytesWithDelta` leaves the whole sketch — including the stored
exact count — unchanged, because `updateTopNWithDelta` increments a
range copy of the bucket entry; the subsequent `QueryBytes` still
answers 5, not the 8 the claim (and the function's own doc comment)
promises.  Variant B's `InsertBytesN` performs the in-place increment:
table and `count` unchanged and `QueryBytes` answers 8. -/
theorem c2_topn_insert_lost_update :
    updateBytesWithDelta testHash c2Sketch [7] 3 = c2Sketch ∧
    QueryBytes testHash (updateBytesWithDelta testHash c2Sketch [7] 3) [7]
      = some 5 ∧
    (insertBytesN testHash c2Sketch [7] 3).table = c2Sketch.table ∧
    (insertBytesN testHash c2Sketch [7] 3).count = c2Sketch.count ∧
    QueryBytes testHash (insertBytesN testHash c2Sketch [7] 3) [7]
      = some 8 := by
  refine ⟨rfl, rfl, rfl, rfl, ?_⟩
  decide

/-! ## Claim C1: the table-side query formula -/

/-- The cells read by a query: row `i` contributes
`table[i][(h1 + i*h2) mod w]` (64-bit index arithmetic, §4.1). -/
def cellsFrom (w h1 h2 : Nat) : Nat → List (List Nat) → List Nat
  | _, [] => []
  | i, row :: rest =>
    row.getD (cellIndex h1 h2 i w) 0 :: cellsFrom w h1 h2 (i + 1) rest

/-- Minimum of a list of naturals (0 for the empty list, which no claim
reaches). -/
def natsMin : List Nat → Nat
  | [] => 0
  | x :: xs => xs.foldl nmin x

/-- The query estimate exactly as Claim C1 states it: per-row cells
`c_i`, running minimum, noise-corrected `v_i = max(0, c_i − (count −
c_i)/(w−1))` (truncated `Nat` subtraction is exactly the `max(0, ·)`),
ascending sort, `res = v_{(d−1)/2} + (v_{d/2} − v_{(d−1)/2})/2`, cap by
the minimum, then the default-value fallback when `res < 2·(count/w)`
and `defaultValue > 0`. -/
def querySpecC1 (c : CMSketch) (h1 h2 : Nat) : Nat :=
  let cells := cellsFrom c.width h1 h2 0 c.table
  let mn := natsMin cells
  let vs := cells.map (fun cell => cell - (c.count - cell) / (c.width - 1))
  let vals := vs.insertionSort (· ≤ ·)
  let lo := vals.getD ((c.depth - 1) / 2) 0
  let hi := vals.getD (c.depth / 2) 0
  let res := nmin (lo + (hi - lo) / 2) mn
  if res < 2 * (c.count / c.width) ∧ 0 < c.defaultValue then c.defaultValue
  else res

theorem cellsFrom_length (w h1 h2 : Nat) :
    ∀ (i : Nat) (rows : List (List Nat)),
      (cellsFrom w h1 h2 i rows).length = rows.length := by
  intro i rows
  induction rows generalizing i with
  | nil => rfl
  | cons row rest ih => simp [cellsFrom, ih]

theorem cellsFrom_mem {w h1 h2 : Nat} (hw : 0 < w) :
    ∀ {i : Nat} {rows : List (List Nat)},
      (∀ row ∈ rows, row.length = w) →
      ∀ x ∈ cellsFrom w h1 h2 i rows, ∃ row ∈ rows, x ∈ row := by
  intro i rows
  induction rows generalizing i with
  | nil => intro _ x hx; simp [cellsFrom] at hx
  | cons row rest ih =>
    intro hlen x hx
    simp only [cellsFrom, List.mem_cons] at hx
    rcases hx with hx | hx
    · refine ⟨row, List.mem_cons_self _ _, ?_⟩
      have hj : cellIndex h1 h2 i w < row.length := by
        rw [hlen row (List.mem_cons_self _ _)]
        exact Nat.mod_lt _ hw
      exact hx ▸ getD_mem hj
    · obtain ⟨r, hr, hxr⟩ := ih (fun r hr => hlen r (List.mem_cons_of_mem _ hr)) x hx
      exact ⟨r, List.mem_cons_of_mem _ hr, hxr⟩

/-- The row loop of `queryHashValue` computes, in order, exactly the
noise-corrected values of the claim and folds the running minimum. -/
theorem queryRows_eq {count w h1 h2 : Nat} (hw : 2 ≤ w) (hcm : count < M64) :
    ∀ (rows : List (List Nat)) (i mn : Nat),
      (∀ row ∈ rows, row.length = w) →
      (∀ row ∈ rows, ∀ x ∈ row, x < M32) →
      (∀ row ∈ rows, ∀ x ∈ row, x ≤ count) →
      queryRows count w h1 h2 i mn rows =
        some ((cellsFrom w h1 h2 i rows).map
                (fun cell => cell - (count - cell) / (w - 1)),
              (cellsFrom w h1 h2 i rows).foldl nmin mn) := by
  intro rows
  induction rows with
  | nil => intro i mn _ _ _; rfl
  | cons row rest ih =>
    intro i mn hlen h32 hle
    have hmemr : row ∈ row :: rest := List.mem_cons_self _ _
    have hj : cellIndex h1 h2 i w < row.length := by
      rw [hlen row hmemr]
      exact Nat.mod_lt _ (by omega)
    have hget : row.get? (cellIndex h1 h2 i w)
        = some (row.getD (cellIndex h1 h2 i w) 0) := by
      rw [List.get?_eq_getElem?, List.getD_eq_getElem?_getD,
        List.getElem?_eq_getElem hj]
      rfl
    set cell := row.getD (cellIndex h1 h2 i w) 0 with hcell
    have hcmem : cell ∈ row := getD_mem hj
    have hc32 : cell < M32 := h32 row hmemr cell hcmem
    have hcle : cell ≤ count := hle row hmemr cell hcmem
    have hw1 : ¬(w - 1 = 0) := by omega
    have hnoise : wsub M64 count cell = count - cell := wsub_eq_sub hcle hcm
    have hval : (if cell < wsub M64 count cell / (w - 1) then 0
        else wsub M32 cell (wsub M64 count cell / (w - 1)))
        = cell - (count - cell) / (w - 1) := by
      rw [hnoise]
      by_cases hlt : cell < (count - cell) / (w - 1)
      · rw [if_pos hlt]; omega
      · rw [if_neg hlt, wsub_eq_sub (by omega) hc32]
    rw [queryRows, hget]
    simp only [hw1, if_false]
    rw [ih (i + 1) (if mn > cell then cell else mn)
      (fun r hr => hlen r (List.mem_cons_of_mem _ hr))
      (fun r hr => h32 r (List.mem_cons_of_mem _ hr))
      (fun r hr => hle r (List.mem_cons_of_mem _ hr))]
    simp only [cellsFrom, List.map_cons, List.foldl_cons]
    rw [hval]
    have hmn : (if mn > cell then cell else mn) = nmin mn cell := by
      unfold nmin
      split <;> split <;> omega
    rw [hmn]

theorem foldl_min_init {init : Nat} :
    ∀ (l : List Nat), l ≠ [] → (∀ x ∈ l, x ≤ init) →
      l.foldl nmin init = natsMin l := by
  intro l
  cases l with
  | nil => intro h; exact absurd rfl h
  | cons x xs =>
    intro _ hb
    simp only [natsMin, List.foldl_cons]
    have hbx := hb x (List.mem_cons_self _ _)
    have : nmin init x = x := by
      unfold nmin
      split <;> omega
    rw [this]

/-- `queryHashValue` computes the formula of Claim C1 on every sketch
whose table has the declared `d × w` shape (`d ≥ 1`, `w ≥ 2`), 32-bit
cells each bounded by `count < 2^64`. -/
theorem queryHashValue_spec (c : CMSketch) (h1 h2 : Nat)
    (hdep : c.table.length = c.depth) (hd : 1 ≤ c.depth) (hw : 2 ≤ c.width)
    (hrow : ∀ row ∈ c.table, row.length = c.width)
    (hc32 : ∀ row ∈ c.table, ∀ x ∈ row, x < M32)
    (hcc : ∀ row ∈ c.table, ∀ x ∈ row, x ≤ c.count)
    (hcnt : c.count < M64) :
    queryHashValue c h1 h2 = some (querySpecC1 c h1 h2) := by
  have hw0 : ¬(c.width = 0) := by omega
  have hnlt : ¬(c.depth < c.table.length) := by omega
  have hd0 : ¬(c.depth = 0) := by omega
  rw [queryHashValue, if_neg hw0, if_neg hnlt, if_neg hd0,
    queryRows_eq hw hcnt c.table 0 (M32 - 1) hrow hc32 hcc]
  set cells := cellsFrom c.width h1 h2 0 c.table with hcells
  have hclen : cells.length = c.depth := by
    rw [hcells, cellsFrom_length, hdep]
  have hcne : cells ≠ [] := by
    intro h
    rw [h] at hclen
    simp at hclen
    omega
  have hcb : ∀ x ∈ cells, x < M32 := by
    intro x hx
    obtain ⟨row, hr, hxr⟩ := cellsFrom_mem (by omega) hrow x hx
    exact hc32 row hr x hxr
  have hmn : cells.foldl nmin (M32 - 1) = natsMin cells :=
    foldl_min_init cells hcne (fun x hx => by have := hcb x hx; omega)
  set vs := cells.map (fun cell => cell - (c.count - cell) / (c.width - 1))
    with hvs
  have hvslen : vs.length = c.depth := by rw [hvs, List.length_map, hclen]
  have hvsb : ∀ x ∈ vs, x < M32 := by
    intro x hx
    rw [hvs, List.mem_map] at hx
    obtain ⟨cell, hcmem, rfl⟩ := hx
    exact Nat.lt_of_le_of_lt (Nat.sub_le _ _) (hcb cell hcmem)
  have hpad : c.depth - c.table.length = 0 := by omega
  rw [hpad]
  simp only [List.replicate, List.append_nil]
  set vals := vs.insertionSort (· ≤ ·) with hvals
  have hvlen : vals.length = c.depth := by
    rw [hvals, List.length_insertionSort, hvslen]
  have hvb : ∀ x ∈ vals, x < M32 := by
    intro x hx
    exact hvsb x ((List.mem_insertionSort (· ≤ ·)).mp hx)
  have hsorted : vals.Sorted (· ≤ ·) := List.sorted_insertionSort (· ≤ ·) vs
  have hloidx : (c.depth - 1) / 2 < vals.length := by
    rw [hvlen]; omega
  have hhiidx : c.depth / 2 < vals.length := by
    rw [hvlen]; omega
  set lo := vals.getD ((c.depth - 1) / 2) 0 with hlo
  set hi := vals.getD (c.depth / 2) 0 with hhi
  have hloget : lo = vals.get ⟨(c.depth - 1) / 2, hloidx⟩ := by
    rw [hlo, List.getD_eq_getElem?_getD, List.getElem?_eq_getElem hloidx]
    rfl
  have hhiget : hi = vals.get ⟨c.depth / 2, hhiidx⟩ := by
    rw [hhi, List.getD_eq_getElem?_getD, List.getElem?_eq_getElem hhiidx]
    rfl
  have hlohi : lo ≤ hi := by
    rw [hloget, hhiget]
    exact hsorted.rel_get_of_le (by simp [Fin.le_def]; omega)
  have hhib : hi < M32 := by
    rw [hhiget]
    exact hvb _ (vals.get_mem _ _)
  have hres : (lo + wsub M32 hi lo / 2) % M32 = lo + (hi - lo) / 2 := by
    rw [wsub_eq_sub hlohi hhib, Nat.mod_eq_of_lt (by omega)]
  rw [hres]
  have hcap : (if lo + (hi - lo) / 2 > natsMin cells then natsMin cells
      else lo + (hi - lo) / 2)
      = nmin (lo + (hi - lo) / 2) (natsMin cells) := by
    unfold nmin
    split <;> split <;> omega
  have hfb : 2 * (c.count / c.width) % M64 = 2 * (c.count / c.width) := by
    apply Nat.mod_eq_of_lt
    have h2 : c.count / c.width ≤ c.count / 2 :=
      Nat.div_le_div_left hw (by omega)
    have h3 : 2 * (c.count / 2) ≤ c.count := by omega
    omega
  rw [querySpecC1]
  simp only [hmn, hcap, hfb]
  rw [apply_ite some]

/-- Claim C1: for every key absent from the Top-N index, `QueryBytes`
returns exactly the claimed estimate: per-row cells at column
`(h1 + i·h2) mod w`, running minimum, `v_i = max(0, c_i − (count −
c_i)/(w−1))`, ascending sort, integer median `v_{(d−1)/2} + (v_{d/2} −
v_{(d−1)/2})/2`, cap by the minimum, then `defaultValue` when the
result is below `2·(count/w)` and `defaultValue > 0`. -/
theorem c1_queryBytes_formula (hash : List Nat → Nat × Nat) (c : CMSketch)
    (d : List Nat)
    (hdep : c.table.length = c.depth) (hd : 1 ≤ c.depth) (hw : 2 ≤ c.width)
    (hrow : ∀ row ∈ c.table, row.length = c.width)
    (hc32 : ∀ row ∈ c.table, ∀ x ∈ row, x < M32)
    (hcc : ∀ row ∈ c.table, ∀ x ∈ row, x ≤ c.count)
    (hcnt : c.count < M64)
    (hmiss : queryTopN c (hash d).1 (hash d).2 d = none) :
    QueryBytes hash c d = some (querySpecC1 c (hash d).1 (hash d).2) := by
  rw [QueryBytes, hmiss]
  exact queryHashValue_spec c (hash d).1 (hash d).2 hdep hd hw hrow hc32 hcc
    hcnt

/-- A concrete sketch for the C1 witness. -/
def c1Sketch : CMSketch :=
  { depth := 2, width := 2, count := 8, defaultValue := 0,
    table := [[5, 0], [3, 0]], topN := none }

/-- Witness for C1 at a concrete sketch and key. -/
theorem c1_queryBytes_witness :
    QueryBytes testHash c1Sketch [0]
      = some (querySpecC1 c1Sketch (testHash [0]).1 (testHash [0]).2) :=
  c1_queryBytes_formula testHash c1Sketch [0] (by decide) (by decide)
    (by decide) (by decide) (by decide) (by decide) (by decide) (by decide)

/-! ## Claim C3: the heavy-hitter cutoff of `newTopNHelper` -/

/-- The cutoff loop of `newTopNHelper` (variant A, lines 99–109): from
position `i` with `rem` positions left before the loop bound, carrying
`last` (the previously accepted frequency) and the wrapped running sum;
breaks at the first `i ≥ k` with `sorted[i]*3 < sorted[k−1]*2` and
`last ≠ sorted[i]`.  Returns `(last, sumTopN, exit position)`. -/
def topNLoop (sorted : List Nat) (k : Nat) : Nat → Nat → Nat → Nat →
    Nat × Nat × Nat
  | last, sum, i, 0 => (last, sum, i)
  | last, sum, i, rem + 1 =>
    let si := sorted.getD i 0
    if k ≤ i ∧ si * 3 < sorted.getD (k - 1) 0 * 2 ∧ last ≠ si then
      (last, sum, i)
    else topNLoop sorted k si ((sum + si) % M64) (i + 1) rem

/-- The cutoff of `newTopNHelper`: `k = min(sampleNDV, numTop)`, loop
bound `min(sampleNDV, 2k)`. -/
def newTopNHelperScan (sorted : List Nat) (numTop : Nat) : Nat × Nat × Nat :=
  let k := nmin sorted.length numTop
  topNLoop sorted k 0 0 0 (nmin sorted.length (2 * k))

/-- The extension guard exactly as Claim C3 states it: position `i`
extends the candidate set only when `sorted[i]*3 ≥ sorted[k−1]*2` AND
`sorted[i] ≠ sorted[i−1]`. -/
def claimTopNSizeC3 (sorted : List Nat) (numTop : Nat) : Nat :=
  let k := nmin sorted.length numTop
  let bound := nmin sorted.length (2 * k)
  k + ((List.range' k (bound - k)).takeWhile (fun i =>
    decide (sorted.getD (k - 1) 0 * 2 ≤ sorted.getD i 0 * 3 ∧
      sorted.getD i 0 ≠ sorted.getD (i - 1) 0))).length

/-- The amended guard: position `i` extends the candidate set while
`sorted[i]*3 ≥ sorted[k−1]*2` OR `sorted[i] = sorted[i−1]`; the first
position violating both terminates the extension. -/
def amendedTopNSizeC3 (sorted : List Nat) (numTop : Nat) : Nat :=
  let k := nmin sorted.length numTop
  let bound := nmin sorted.length (2 * k)
  k + ((List.range' k (bound - k)).takeWhile (fun i =>
    decide (sorted.getD (k - 1) 0 * 2 ≤ sorted.getD i 0 * 3 ∨
      sorted.getD i 0 = sorted.getD (i - 1) 0))).length

/-- Counterexample to Claim C3 as stated: on the descending frequency
vector `[3, 3, 2, 2]` with `numTop = 2` (so `k = 2`, threshold
`sorted[1]·2 = 6`), the code admits position 3 (`2·3 = 6 ≥ 6` passes
the threshold, and the tie `sorted[3] = sorted[2]` does not break), so
the loop exits at position 4, while the claim's `≠ sorted[i−1]` guard
would terminate the extension at position 3. -/
theorem c3_cutoff_counterexample :
    (newTopNHelperScan [3, 3, 2, 2] 2).2.2 ≠ claimTopNSizeC3 [3, 3, 2, 2] 2 ∧
    (newTopNHelperScan [3, 3, 2, 2] 2).2.2 = 4 ∧
    claimTopNSizeC3 [3, 3, 2, 2] 2 = 3 := by
  decide

/-- Warm-up phase of the cutoff loop: positions `i < k` never break. -/
theorem topNLoop_warmup (sorted : List Nat) (k bound : Nat) (hkb : k ≤ bound) :
    ∀ rem i last sum, i < k → i + rem = bound →
      ∃ sum', topNLoop sorted k last sum i rem
        = topNLoop sorted k (sorted.getD (k - 1) 0) sum' k (bound - k) := by
  intro rem
  induction rem with
  | zero => intro i last sum hik hib; omega
  | succ rem ih =>
    intro i last sum hik hib
    rw [topNLoop]
    rw [if_neg (by omega)]
    by_cases hk1 : i + 1 < k
    · exact ih (i + 1) _ _ hk1 (by omega)
    · have hik1 : i + 1 = k := by omega
      have hi : i = k - 1 := by omega
      refine ⟨(sum + sorted.getD i 0) % M64, ?_⟩
      rw [hi]
      have h4 : k - 1 + 1 = k := by omega
      have h5 : rem = bound - k := by omega
      rw [h4, h5]

/-- Extension phase: from position `i ≥ k` with the loop invariant
`last = sorted[i−1]`, the loop exits exactly at the end of the maximal
run of positions satisfying `sorted[i]*3 ≥ sorted[k−1]*2` or
`sorted[i] = sorted[i−1]`. -/
theorem topNLoop_extension (sorted : List Nat) (k : Nat) (hk : 1 ≤ k) :
    ∀ rem i last sum, k ≤ i → last = sorted.getD (i - 1) 0 →
      (topNLoop sorted k last sum i rem).2.2
        = i + ((List.range' i rem).takeWhile (fun j =>
            decide (sorted.getD (k - 1) 0 * 2 ≤ sorted.getD j 0 * 3 ∨
              sorted.getD j 0 = sorted.getD (j - 1) 0))).length := by
  intro rem
  induction rem with
  | zero => intro i last sum _ _; simp [topNLoop]
  | succ rem ih =>
    intro i last sum hki hlast
    rw [topNLoop, List.range'_succ]
    by_cases hbrk : sorted.getD (k - 1) 0 * 2 ≤ sorted.getD i 0 * 3 ∨
        sorted.getD i 0 = sorted.getD (i - 1) 0
    · rw [if_neg (by rw [hlast]; push_neg; intro _ h1; omega)]
      rw [List.takeWhile_cons, if_pos (by simpa using hbrk)]
      rw [ih (i + 1) (sorted.getD i 0) _ (by omega) (by simp)]
      simp only [List.length_cons]
      omega
    · push_neg at hbrk
      rw [if_pos ⟨hki, by omega, by rw [hlast]; omega⟩]
      rw [List.takeWhile_cons, if_neg (by simpa using hbrk)]
      simp

/-- Claim C3, amended: the candidate set is the top `k` positions
extended through further positions `i ∈ [k, min(ndv, 2k))` exactly
while `sorted[i]*3 ≥ sorted[k−1]*2` or `sorted[i] = sorted[i−1]`; the
first position violating both conditions terminates the extension. -/
theorem c3_cutoff_amended (sorted : List Nat) (numTop : Nat)
    (hnt : 1 ≤ numTop) (hndv : 1 ≤ sorted.length) :
    (newTopNHelperScan sorted numTop).2.2 = amendedTopNSizeC3 sorted numTop := by
  rw [newTopNHelperScan, amendedTopNSizeC3]
  have hk : 1 ≤ nmin sorted.length numTop := by
    unfold nmin
    split <;> omega
  have hkb : nmin sorted.length numTop
      ≤ nmin sorted.length (2 * nmin sorted.length numTop) := by
    unfold nmin
    split <;> split <;> omega
  obtain ⟨sum', hjump⟩ := topNLoop_warmup sorted (nmin sorted.length numTop)
    (nmin sorted.length (2 * nmin sorted.length numTop)) hkb
    (nmin sorted.length (2 * nmin sorted.length numTop)) 0 0 0 (by omega)
    (by omega)
  rw [hjump]
  exact topNLoop_extension sorted (nmin sorted.length numTop) hk _ _ _ sum'
    (by omega) rfl

/-- Witness for the amended C3 at a concrete vector: `sorted =
[3, 2, 2]`, `numTop = 1`. -/
theorem c3_cutoff_witness :
    (newTopNHelperScan [3, 2, 2] 1).2.2 = amendedTopNSizeC3 [3, 2, 2] 1 :=
  c3_cutoff_amended [3, 2, 2] 1 (by decide) (by decide)

/-! ## Claims C4 and C5: the Top-N builder -/

/-- `topNHelper` (variant A): the builder state after `newTopNHelper`.
`counter` is the Go frequency map as an association list of
`(key bytes, sample count)` pairs. -/
structure TopNHelper where
  sampleSize : Nat
  numTop : Nat
  counter : List (List Nat × Nat)
  sorted : List Nat
  onlyOnceItems : Nat
  sumTopN : Nat
  lastVal : Nat

/-- Append an entry to the `h1` bucket (creating the bucket if absent),
as `buildTopNMap` / the Top-N population loop do. -/
def topNInsert : TopNMap → Nat → DataCount → TopNMap
  | [], k, e => [(k, [e])]
  | (k', v) :: rest, k, e =>
    if k' = k then (k', v ++ [e]) :: rest
    else (k', v) :: topNInsert rest k e

/-- `buildTopNMap` (shared by the builder and the codec): hash each
record's data and append it to its `h1` bucket. -/
def buildTopNMap (hash : List Nat → Nat × Nat)
    (topn : List (List Nat × Nat)) : TopNMap :=
  topn.foldl (fun m kv =>
    topNInsert m (hash kv.1).1 ⟨(hash kv.1).1, (hash kv.1).2, kv.1, kv.2⟩) []

/-- The partition loop of `buildCMSWithTopN`: each counter entry either
becomes a scaled Top-N candidate (when `enableTopN` and `cnt ≥
lastVal`) or is routed into the table with delta `cnt·ratio` (64-bit
product). -/
def buildLoop (hash : List Nat → Nat × Nat) (enable : Bool)
    (lastVal ratio : Nat) :
    List (List Nat × Nat) → CMSketch → List (List Nat × Nat) → Nat →
    CMSketch × List (List Nat × Nat) × Nat
  | [], c, tl, s => (c, tl, s)
  | kv :: rest, c, tl, s =>
    if enable && decide (lastVal ≤ kv.2) then
      buildLoop hash enable lastVal ratio rest c
        (tl ++ [(kv.1, kv.2 * ratio % M64)]) ((s + kv.2 * ratio) % M64)
    else
      buildLoop hash enable lastVal ratio rest
        (updateBytesWithDelta hash c kv.1 (kv.2 * ratio % M64)) tl s

/-- `buildCMSWithTopN` (variant A, lines 125–156): decide
`enableTopN := sampleSize/10 ≤ sumTopN`, partition the counter, then —
only when `enableTopN` — install the Top-N map and update the helper's
`sumTopN` (now the scaled Top-N mass) and `numTop` (the post-cutoff
size). -/
def buildCMSWithTopN (hash : List Nat → Nat × Nat) (helper : TopNHelper)
    (d w ratio : Nat) : CMSketch × TopNHelper :=
  let enable : Bool := decide (helper.sampleSize / 10 ≤ helper.sumTopN)
  let r := buildLoop hash enable helper.lastVal ratio helper.counter
    (NewCMSketch d w) [] 0
  if enable then
    ({ r.1 with topN := some (buildTopNMap hash r.2.1) },
     { helper with sumTopN := r.2.2, numTop := r.2.1.length })
  else (r.1, { helper with sumTopN := r.2.2 })

/-- `calculateDefaultVal` (variant A, lines 158–170), with the Go
64-bit wrap-arounds made explicit. -/
def calculateDefaultVal (c : CMSketch) (helper : TopNHelper)
    (estimateNDV ratio rowCount : Nat) : CMSketch :=
  let sampleNDV := helper.sorted.length
  if rowCount ≤ helper.sumTopN then { c with defaultValue := 1 }
  else if estimateNDV ≤ helper.numTop then { c with defaultValue := 1 }
  else if (estimateNDV + helper.onlyOnceItems) % M64 ≤ sampleNDV then
    { c with defaultValue := 1 }
  else
    let remaining := wsub M64 rowCount
      (wsub M64 helper.sampleSize helper.onlyOnceItems * ratio % M64)
    { c with defaultValue :=
        remaining / ((wsub M64 estimateNDV sampleNDV + helper.onlyOnceItems) % M64) }

/-- Modelled from the spec: `calculateEstimateNDV` is not in `src/`
(only its caller is); §4.4 and the glossary fix the expansion factor as
`ratio = max(1, rowCount / sampleSize)`, and leave `estimateNDV` opaque
(it is a parameter of the pipeline model below). -/
def specRatio (rowCount sampleSize : Nat) : Nat :=
  nmax 1 (rowCount / sampleSize)

/-- The inline ratio computation of variant B's `BuildTopN`
(`ratio := total/sampleSize; if total < sampleSize { ratio = 1 }`). -/
def ratioB (total sampleSize : Nat) : Nat :=
  if total < sampleSize then 1 else total / sampleSize

/-- Variant B's inline ratio agrees with the spec's
`max(1, rowCount/S)` for nonempty samples, corroborating the
spec-modelled `specRatio`. -/
theorem ratioB_eq_specRatio (total sampleSize : Nat) (hs : 1 ≤ sampleSize) :
    ratioB total sampleSize = specRatio total sampleSize := by
  unfold ratioB specRatio nmax
  rcases Nat.lt_or_ge total sampleSize with h | h
  · rw [if_pos h, Nat.div_eq_of_lt h, if_neg (by omega)]
  · rw [if_neg (by omega)]
    have h1 : 1 ≤ total / sampleSize := (Nat.one_le_div_iff (by omega)).mpr h
    rw [if_pos h1]

/-- `NewCMSketchWithTopN` (variant A, lines 116–122) with the
spec-modelled ratio and the opaque `estimateNDV` as parameter, applied
to an already-built helper. -/
def newCMSketchWithTopNModel (hash : List Nat → Nat × Nat)
    (helper : TopNHelper) (d w estimateNDV rowCount : Nat) : CMSketch :=
  let ratio := specRatio rowCount helper.sampleSize
  let r := buildCMSWithTopN hash helper d w ratio
  calculateDefaultVal r.1 r.2 estimateNDV ratio rowCount

/-- Scaled mass of a list of counter entries (exact products, no wrap). -/
def scaledSum (ratio : Nat) (items : List (List Nat × Nat)) : Nat :=
  (items.map (fun kv => kv.2 * ratio)).sum

theorem tableAdd_length (h1 h2 w n : Nat) :
    ∀ (i : Nat) (rows : List (List Nat)),
      (tableAdd h1 h2 w n i rows).length = rows.length := by
  intro i rows
  induction rows generalizing i with
  | nil => rfl
  | cons row rest ih => simp [tableAdd, ih]

theorem tableAdd_rowlength (h1 h2 w n : Nat) :
    ∀ (i : Nat) (rows : List (List Nat)) (r : List Nat),
      r ∈ tableAdd h1 h2 w n i rows → ∃ r0 ∈ rows, r.length = r0.length := by
  intro i rows
  induction rows generalizing i with
  | nil => intro r hr; simp [tableAdd] at hr
  | cons row rest ih =>
    intro r hr
    simp only [tableAdd, List.mem_cons] at hr
    rcases hr with hr | hr
    · exact ⟨row, List.mem_cons_self _ _, by simp [hr, setCell]⟩
    · obtain ⟨r0, hr0, hlen⟩ := ih (i + 1) r hr
      exact ⟨r0, List.mem_cons_of_mem _ hr0, hlen⟩

theorem setCell_getD (row : List Nat) (jt j n : Nat) (hj : j < row.length) :
    (setCell row jt n).getD j 0
      = if jt = j then (row.getD j 0 + n) % M32 else row.getD j 0 := by
  unfold setCell
  rw [List.getD_eq_getElem?_getD, ← List.get?_eq_getElem?,
    List.get?_set_of_lt _ _ hj]
  by_cases hjt : jt = j
  · subst hjt
    rw [if_pos rfl, if_pos rfl]
    rfl
  · rw [if_neg hjt, if_neg hjt, List.get?_eq_getElem?,
      ← List.getD_eq_getElem?_getD]

theorem tableAdd_getD (h1 h2 w n : Nat) (hw : 0 < w) :
    ∀ (i0 : Nat) (rows : List (List Nat)) (i j : Nat),
      (∀ row ∈ rows, row.length = w) → i < rows.length → j < w →
      ((tableAdd h1 h2 w n i0 rows).getD i []).getD j 0
        = if cellIndex h1 h2 (i0 + i) w = j
          then ((rows.getD i []).getD j 0 + n) % M32
          else (rows.getD i []).getD j 0 := by
  intro i0 rows
  induction rows generalizing i0 with
  | nil => intro i j _ hi _; simp at hi
  | cons row rest ih =>
    intro i j hlen hi hj
    cases i with
    | zero =>
      simp only [tableAdd, List.getD_cons_zero, Nat.add_zero]
      exact setCell_getD row (cellIndex h1 h2 i0 w) j n
        (by rw [hlen row (List.mem_cons_self _ _)]; exact hj)
    | succ i =>
      simp only [tableAdd, List.getD_cons_succ]
      rw [ih (i0 + 1) i j (fun r hr => hlen r (List.mem_cons_of_mem _ hr))
        (by simpa using hi) hj]
      have : i0 + 1 + i = i0 + (i + 1) := by omega
      rw [this]

/-- With no Top-N index, `updateBytesWithDelta` is a pure table
update. -/
theorem updateBytesWithDelta_noTopN (hash : List Nat → Nat × Nat)
    (c : CMSketch) (d : List Nat) (n : Nat) (hc : c.topN = none) :
    updateBytesWithDelta hash c d n
      = addToTable c (hash d).1 (hash d).2 n := by
  unfold updateBytesWithDelta updateTopNWithDelta
  rw [hc]
  rfl

theorem mod_add3 (m a b c : Nat) :
    ((a + b % m) % m + c) % m = (a + b + c) % m := by
  rw [Nat.mod_add_mod, Nat.add_right_comm a (b % m) c, Nat.add_mod_mod,
    Nat.add_right_comm a c b]

theorem mod32_of_mod64 (y x : Nat) : (y + x % M64) % M32 = (y + x) % M32 := by
  have hdvd : M32 ∣ M64 := ⟨2 ^ 32, by norm_num [M32, M64]⟩
  conv_lhs => rw [Nat.add_mod]
  rw [Nat.mod_mod_of_dvd x hdvd, ← Nat.add_mod]

theorem mod32_add3 (a b c : Nat) :
    ((a + b % M64) % M32 + c) % M32 = (a + b + c) % M32 := by
  rw [Nat.mod_add_mod, Nat.add_right_comm a (b % M64) c, mod32_of_mod64,
    Nat.add_right_comm a c b]

theorem tableAdd_cellbound (h1 h2 w n : Nat) :
    ∀ (i : Nat) (rows : List (List Nat)),
      (∀ row ∈ rows, ∀ x ∈ row, x < M32) →
      ∀ r ∈ tableAdd h1 h2 w n i rows, ∀ x ∈ r, x < M32 := by
  intro i rows
  induction rows generalizing i with
  | nil => intro _ r hr; simp [tableAdd] at hr
  | cons row rest ih =>
    intro hb r hr
    simp only [tableAdd, List.mem_cons] at hr
    rcases hr with hr | hr
    · intro x hx
      rw [hr] at hx
      unfold setCell at hx
      rcases List.mem_or_eq_of_mem_set hx with hx | hx
      · exact hb row (List.mem_cons_self _ _) x hx
      · rw [hx]
        exact Nat.mod_lt _ (by norm_num [M32])
    · exact ih (i + 1) (fun r' hr' => hb r' (List.mem_cons_of_mem _ hr')) r hr

/-- The selected (Top-N candidate) entries of the partition loop. -/
def selFilter (enable : Bool) (lastVal : Nat)
    (items : List (List Nat × Nat)) : List (List Nat × Nat) :=
  items.filter (fun kv => enable && decide (lastVal ≤ kv.2))

/-- The entries routed into the counting table. -/
def nonSelFilter (enable : Bool) (lastVal : Nat)
    (items : List (List Nat × Nat)) : List (List Nat × Nat) :=
  items.filter (fun kv => !(enable && decide (lastVal ≤ kv.2)))

/-- The table-routed entries hashing to cell `(i, j)`. -/
def hitSum (hash : List Nat → Nat × Nat) (enable : Bool)
    (lastVal ratio w i j : Nat) (items : List (List Nat × Nat)) : Nat :=
  scaledSum ratio ((nonSelFilter enable lastVal items).filter
    (fun kv => decide (cellIndex (hash kv.1).1 (hash kv.1).2 i w = j)))

/-- Full characterization of the partition loop of `buildCMSWithTopN`:
the sketch keeps no Top-N index and its dimensions and default value;
`count` accumulates the scaled mass of the non-selected entries (64-bit
wrap); the candidate list collects the selected entries with scaled
counts in order; the accumulator collects their scaled mass; and every
cell accumulates the scaled mass of the non-selected entries hashing to
it (32-bit wrap). -/
theorem buildLoop_char (hash : List Nat → Nat × Nat) (enable : Bool)
    (lastVal ratio : Nat) :
    ∀ (items : List (List Nat × Nat)) (c : CMSketch)
      (tl : List (List Nat × Nat)) (s : Nat),
      c.topN = none → c.count < M64 → s < M64 →
      (∀ row ∈ c.table, row.length = c.width) →
      (∀ row ∈ c.table, ∀ x ∈ row, x < M32) →
      0 < c.width →
      (buildLoop hash enable lastVal ratio items c tl s).1.topN = none ∧
      (buildLoop hash enable lastVal ratio items c tl s).1.depth = c.depth ∧
      (buildLoop hash enable lastVal ratio items c tl s).1.width = c.width ∧
      (buildLoop hash enable lastVal ratio items c tl s).1.defaultValue
        = c.defaultValue ∧
      (buildLoop hash enable lastVal ratio items c tl s).1.count
        = (c.count + scaledSum ratio (nonSelFilter enable lastVal items)) % M64 ∧
      (buildLoop hash enable lastVal ratio items c tl s).2.1
        = tl ++ (selFilter enable lastVal items).map
            (fun kv => (kv.1, kv.2 * ratio % M64)) ∧
      (buildLoop hash enable lastVal ratio items c tl s).2.2
        = (s + scaledSum ratio (selFilter enable lastVal items)) % M64 ∧
      (buildLoop hash enable lastVal ratio items c tl s).1.table.length
        = c.table.length ∧
      (∀ row ∈ (buildLoop hash enable lastVal ratio items c tl s).1.table,
        row.length = c.width) ∧
      (∀ row ∈ (buildLoop hash enable lastVal ratio items c tl s).1.table,
        ∀ x ∈ row, x < M32) ∧
      (∀ i j, i < c.table.length → j < c.width →
        getCell (buildLoop hash enable lastVal ratio items c tl s).1 i j
          = (getCell c i j
              + hitSum hash enable lastVal ratio c.width i j items) % M32) := by
  intro items
  induction items with
  | nil =>
    intro c tl s hc hcm hs hrow hb hw
    refine ⟨hc, rfl, rfl, rfl, ?_, ?_, ?_, rfl, hrow, hb, ?_⟩
    · show c.count = (c.count + 0) % M64
      rw [Nat.add_zero, Nat.mod_eq_of_lt hcm]
    · show tl = tl ++ ([] : List (List Nat × Nat))
      rw [List.append_nil]
    · show s = (s + 0) % M64
      rw [Nat.add_zero, Nat.mod_eq_of_lt hs]
    · intro i j hi hj
      show getCell c i j = (getCell c i j + 0) % M32
      have hg : getCell c i j < M32 :=
        hb _ (getD_mem_list hi) _ (getD_mem (by
          rw [hrow _ (getD_mem_list hi)]; exact hj))
      rw [Nat.add_zero, Nat.mod_eq_of_lt hg]
  | cons kv rest ih =>
    intro c tl s hc hcm hs hrow hb hw
    by_cases hsel : (enable && decide (lastVal ≤ kv.2)) = true
    · rw [buildLoop]
      rw [if_pos hsel]
      have hrec := ih c (tl ++ [(kv.1, kv.2 * ratio % M64)])
        ((s + kv.2 * ratio) % M64) hc hcm (Nat.mod_lt _ (by norm_num [M64]))
        hrow hb hw
      obtain ⟨h1, h2, h3, h4, h5, h6, h7, h8, h9, h10, h11⟩ := hrec
      have hfsel : selFilter enable lastVal (kv :: rest)
          = kv :: selFilter enable lastVal rest := by
        unfold selFilter
        rw [List.filter_cons, if_pos hsel]
      have hfnon : nonSelFilter enable lastVal (kv :: rest)
          = nonSelFilter enable lastVal rest := by
        unfold nonSelFilter
        rw [List.filter_cons, if_neg (by simp [hsel])]
      refine ⟨h1, h2, h3, h4, ?_, ?_, ?_, h8, h9, h10, ?_⟩
      · rw [h5, hfnon]
      · rw [h6, hfsel]
        simp
      · rw [h7, hfsel]
        unfold scaledSum
        rw [List.map_cons, List.sum_cons, Nat.mod_add_mod, Nat.add_assoc]
      · intro i j hi hj
        rw [h11 i j hi hj]
        unfold hitSum
        rw [hfnon]
    · rw [buildLoop]
      rw [if_neg hsel]
      set c1 := updateBytesWithDelta hash c kv.1 (kv.2 * ratio % M64) with hc1
      have hc1eq : c1 = addToTable c (hash kv.1).1 (hash kv.1).2
          (kv.2 * ratio % M64) := updateBytesWithDelta_noTopN hash c kv.1 _ hc
      have hc1top : c1.topN = none := by rw [hc1eq]; exact hc
      have hc1cm : c1.count < M64 := by
        rw [hc1eq]
        exact Nat.mod_lt _ (by norm_num [M64])
      have hc1w : c1.width = c.width := by rw [hc1eq]; rfl
      have hc1tab : c1.table = tableAdd (hash kv.1).1 (hash kv.1).2 c.width
          (kv.2 * ratio % M64) 0 c.table := by rw [hc1eq]; rfl
      have hc1len : c1.table.length = c.table.length := by
        rw [hc1tab, tableAdd_length]
      have hc1row : ∀ row ∈ c1.table, row.length = c1.width := by
        intro r hr
        rw [hc1tab] at hr
        obtain ⟨r0, hr0, hl⟩ := tableAdd_rowlength _ _ _ _ _ _ r hr
        rw [hc1w, hl]
        exact hrow r0 hr0
      have hc1b : ∀ row ∈ c1.table, ∀ x ∈ row, x < M32 := by
        intro r hr
        rw [hc1tab] at hr
        exact tableAdd_cellbound _ _ _ _ _ _ hb r hr
      have hc1w0 : 0 < c1.width := by rw [hc1w]; exact hw
      have hrec := ih c1 tl s hc1top hc1cm hs hc1row hc1b hc1w0
      rw [hc1w] at hrec
      obtain ⟨h1, h2, h3, h4, h5, h6, h7, h8, h9, h10, h11⟩ := hrec
      have hfsel : selFilter enable lastVal (kv :: rest)
          = selFilter enable lastVal rest := by
        unfold selFilter
        rw [List.filter_cons, if_neg (by simp [hsel])]
      have hfnon : nonSelFilter enable lastVal (kv :: rest)
          = kv :: nonSelFilter enable lastVal rest := by
        unfold nonSelFilter
        rw [List.filter_cons, if_pos (by simp [hsel])]
      have hdepth1 : c1.depth = c.depth := by rw [hc1eq]; rfl
      have hdv1 : c1.defaultValue = c.defaultValue := by rw [hc1eq]; rfl
      have hcount1 : c1.count = (c.count + kv.2 * ratio % M64) % M64 := by
        rw [hc1eq]; rfl
      refine ⟨h1, by rw [h2, hdepth1], h3,
        by rw [h4, hdv1], ?_, by rw [h6, hfsel], by rw [h7, hfsel],
        by rw [h8, hc1len], h9, h10, ?_⟩
      · rw [h5, hfnon, hcount1]
        unfold scaledSum
        rw [List.map_cons, List.sum_cons, mod_add3, Nat.add_assoc]
      · intro i j hi hj
        rw [h11 i j (by rw [hc1len]; exact hi) hj]
        have hcell1 : getCell c1 i j
            = if cellIndex (hash kv.1).1 (hash kv.1).2 i c.width = j
              then (getCell c i j + kv.2 * ratio % M64) % M32
              else getCell c i j := by
          unfold getCell
          rw [hc1tab]
          have := tableAdd_getD (hash kv.1).1 (hash kv.1).2 c.width
            (kv.2 * ratio % M64) hw 0 c.table i j hrow hi hj
          rw [Nat.zero_add] at this
          exact this
        rw [hcell1]
        unfold hitSum
        rw [hfnon]
        by_cases hhit : cellIndex (hash kv.1).1 (hash kv.1).2 i c.width = j
        · rw [if_pos hhit]
          rw [List.filter_cons, if_pos (by simpa using hhit)]
          unfold scaledSum
          rw [List.map_cons, List.sum_cons, mod32_add3, Nat.add_assoc]
        · rw [if_neg hhit]
          rw [List.filter_cons, if_neg (by simpa using hhit)]

/-- All records of a Top-N map, bucket by bucket. -/
def entriesOf (m : TopNMap) : List DataCount :=
  m.foldr (fun kv acc => kv.2 ++ acc) []

theorem bucketOf_sub_entries : ∀ (m : TopNMap) (h1 : Nat) (e : DataCount),
    e ∈ bucketOf m h1 → e ∈ entriesOf m := by
  intro m
  induction m with
  | nil => intro h1 e he; simp [bucketOf] at he
  | cons kv rest ih =>
    intro h1 e he
    match kv with
    | (k, v) =>
      rw [bucketOf] at he
      simp only [entriesOf, List.foldr_cons, List.mem_append]
      by_cases hk : k = h1
      · rw [if_pos hk] at he
        exact Or.inl he
      · rw [if_neg hk] at he
        exact Or.inr (ih h1 e he)

theorem probeBucket_none (b : List DataCount) (h2 : Nat) (d : List Nat)
    (hb : ∀ e ∈ b, e.data ≠ d) : probeBucket b h2 d = none := by
  induction b with
  | nil => rfl
  | cons e rest ih =>
    rw [probeBucket]
    rw [if_neg (by
      intro ⟨_, hd⟩
      exact hb e (List.mem_cons_self _ _) hd)]
    exact ih (fun e' he' => hb e' (List.mem_cons_of_mem _ he'))

theorem probeBucket_append_none (b1 b2 : List DataCount) (h2 : Nat)
    (d : List Nat) (h : probeBucket b1 h2 d = none) :
    probeBucket (b1 ++ b2) h2 d = probeBucket b2 h2 d := by
  induction b1 with
  | nil => rfl
  | cons e rest ih =>
    rw [probeBucket] at h
    rw [List.cons_append, probeBucket]
    by_cases he : e.h2 = h2 ∧ e.data = d
    · rw [if_pos he] at h
      exact absurd h (by simp)
    · rw [if_neg he] at h ⊢
      exact ih h

theorem bucketOf_topNInsert_self : ∀ (m : TopNMap) (k : Nat) (e : DataCount),
    bucketOf (topNInsert m k e) k = bucketOf m k ++ [e] := by
  intro m
  induction m with
  | nil => intro k e; simp [topNInsert, bucketOf]
  | cons kv rest ih =>
    intro k e
    match kv with
    | (k', v) =>
      rw [topNInsert]
      by_cases hk : k' = k
      · rw [if_pos hk, bucketOf, if_pos hk, bucketOf, if_pos hk]
      · rw [if_neg hk, bucketOf, if_neg hk, bucketOf, if_neg hk]
        exact ih k e

theorem bucketOf_topNInsert_other : ∀ (m : TopNMap) (k q : Nat)
    (e : DataCount), q ≠ k →
    bucketOf (topNInsert m k e) q = bucketOf m q := by
  intro m
  induction m with
  | nil =>
    intro k q e hq
    simp only [topNInsert, bucketOf]
    rw [if_neg (by omega)]
  | cons kv rest ih =>
    intro k q e hq
    match kv with
    | (k', v) =>
      rw [topNInsert]
      by_cases hk : k' = k
      · rw [if_pos hk, bucketOf, bucketOf, if_neg (by omega), if_neg (by omega)]
      · rw [if_neg hk, bucketOf, bucketOf]
        by_cases hk' : k' = q
        · rw [if_pos hk', if_pos hk']
        · rw [if_neg hk', if_neg hk']
          exact ih k q e hq

theorem entriesOf_topNInsert_mem : ∀ (m : TopNMap) (k : Nat)
    (e e' : DataCount), e' ∈ entriesOf (topNInsert m k e) →
    e' ∈ entriesOf m ∨ e' = e := by
  intro m
  induction m with
  | nil =>
    intro k e e' he
    simp [topNInsert, entriesOf] at he
    exact Or.inr he
  | cons kv rest ih =>
    intro k e e' he
    match kv with
    | (k', v) =>
      rw [topNInsert] at he
      by_cases hk : k' = k
      · rw [if_pos hk] at he
        simp only [entriesOf, List.foldr_cons, List.mem_append] at he ⊢
        rcases he with (he | he) | he
        · exact Or.inl (Or.inl he)
        · exact Or.inr (by simpa using he)
        · exact Or.inl (Or.inr he)
      · rw [if_neg hk] at he
        simp only [entriesOf, List.foldr_cons, List.mem_append] at he ⊢
        rcases he with he | he
        · exact Or.inl (Or.inl he)
        · rcases ih k e e' he with h | h
          · exact Or.inl (Or.inr h)
          · exact Or.inr h

theorem probeBucket_append_some (b1 b2 : List DataCount) (h2 : Nat)
    (d : List Nat) (x : Nat) (h : probeBucket b1 h2 d = some x) :
    probeBucket (b1 ++ b2) h2 d = some x := by
  induction b1 with
  | nil => simp [probeBucket] at h
  | cons e rest ih =>
    rw [probeBucket] at h
    rw [List.cons_append, probeBucket]
    by_cases he : e.h2 = h2 ∧ e.data = d
    · rw [if_pos he] at h ⊢
      exact h
    · rw [if_neg he] at h ⊢
      exact ih h

theorem probe_topNInsert_other (m : TopNMap) (k : Nat) (e : DataCount)
    (q h2 : Nat) (dd : List Nat) (hd : dd ≠ e.data) :
    probeBucket (bucketOf (topNInsert m k e) q) h2 dd
      = probeBucket (bucketOf m q) h2 dd := by
  by_cases hq : q = k
  · subst hq
    rw [bucketOf_topNInsert_self]
    cases hp : probeBucket (bucketOf m q) h2 dd with
    | some x => rw [probeBucket_append_some _ _ _ _ _ hp]
    | none =>
      rw [probeBucket_append_none _ _ _ _ hp]
      exact probeBucket_none [e] h2 dd (by
        intro e' he'
        simp only [List.mem_singleton] at he'
        rw [he']
        intro hc
        exact hd hc.symm)
  · rw [bucketOf_topNInsert_other m k q e hq]

/-- One step of `buildTopNMap`. -/
def buildStep (hash : List Nat → Nat × Nat) (m : TopNMap)
    (kv : List Nat × Nat) : TopNMap :=
  topNInsert m (hash kv.1).1 ⟨(hash kv.1).1, (hash kv.1).2, kv.1, kv.2⟩

theorem probe_buildFold_other (hash : List Nat → Nat × Nat) :
    ∀ (tl : List (List Nat × Nat)) (m : TopNMap) (q h2 : Nat)
      (dd : List Nat), dd ∉ tl.map Prod.fst →
      probeBucket (bucketOf (tl.foldl (buildStep hash) m) q) h2 dd
        = probeBucket (bucketOf m q) h2 dd := by
  intro tl
  induction tl with
  | nil => intro m q h2 dd _; rfl
  | cons kv rest ih =>
    intro m q h2 dd hdd
    rw [List.map_cons] at hdd
    rw [List.foldl_cons]
    rw [ih _ q h2 dd (fun h => hdd (List.mem_cons_of_mem _ h))]
    exact probe_topNInsert_other m _ _ q h2 dd
      (by
        intro h
        exact hdd (by rw [h]; exact List.mem_cons_self _ _))

theorem probe_topNInsert_self (m : TopNMap) (e : DataCount)
    (hnone : probeBucket (bucketOf m e.h1) e.h2 e.data = none) :
    probeBucket (bucketOf (topNInsert m e.h1 e) e.h1) e.h2 e.data
      = some e.count := by
  rw [bucketOf_topNInsert_self, probeBucket_append_none _ _ _ _ hnone,
    probeBucket, if_pos ⟨rfl, rfl⟩]

/-- Looking a key up in the map built by `buildTopNMap` returns its
stored count, for key lists with distinct data. -/
theorem buildTopNMap_lookup (hash : List Nat → Nat × Nat) :
    ∀ (tl : List (List Nat × Nat)) (m0 : TopNMap),
      (tl.map Prod.fst).Nodup →
      (∀ e ∈ entriesOf m0, e.data ∉ tl.map Prod.fst) →
      ∀ dd cc, (dd, cc) ∈ tl →
        probeBucket (bucketOf (tl.foldl (buildStep hash) m0) (hash dd).1)
          (hash dd).2 dd = some cc := by
  intro tl
  induction tl with
  | nil => intro m0 _ _ dd cc hmem; simp at hmem
  | cons kv rest ih =>
    intro m0 hnodup hm0 dd cc hmem
    rw [List.map_cons] at hnodup
    obtain ⟨hhead, htail⟩ := List.nodup_cons.mp hnodup
    rw [List.foldl_cons]
    rcases List.mem_cons.mp hmem with heq | hrest
    · have hkv1 : kv.1 = dd := by rw [← heq]
      have hkv2 : kv.2 = cc := by rw [← heq]
      have hddrest : dd ∉ rest.map Prod.fst := by
        rw [← hkv1]
        exact hhead
      rw [probe_buildFold_other hash rest _ _ _ dd hddrest]
      unfold buildStep
      rw [hkv1, hkv2]
      exact probe_topNInsert_self m0 ⟨(hash dd).1, (hash dd).2, dd, cc⟩
        (probeBucket_none _ _ _ (fun e he => by
          have hent := bucketOf_sub_entries m0 _ e he
          have hno := hm0 e hent
          intro hc
          apply hno
          rw [hc, List.map_cons, hkv1]
          exact List.mem_cons_self _ _))
    · apply ih (buildStep hash m0 kv)
      · exact htail
      · intro e he hc
        rcases entriesOf_topNInsert_mem m0 _ _ e he with h | h
        · apply hm0 e h
          rw [List.map_cons]
          exact List.mem_cons_of_mem _ hc
        · have hd1 : e.data = kv.1 := by rw [h]
          rw [hd1] at hc
          exact hhead hc
      · exact hrest

theorem selFilter_false (lv : Nat) (items : List (List Nat × Nat)) :
    selFilter false lv items = [] := by
  induction items with
  | nil => rfl
  | cons kv rest ih =>
    unfold selFilter at *
    rw [List.filter_cons, if_neg (by simp)]
    exact ih

theorem nonSelFilter_false (lv : Nat) (items : List (List Nat × Nat)) :
    nonSelFilter false lv items = items := by
  induction items with
  | nil => rfl
  | cons kv rest ih =>
    unfold nonSelFilter at *
    rw [List.filter_cons, if_pos (by simp)]
    rw [ih]

theorem selFilter_true (lv : Nat) (items : List (List Nat × Nat)) :
    selFilter true lv items = items.filter (fun kv => decide (lv ≤ kv.2)) := by
  induction items with
  | nil => rfl
  | cons kv rest ih =>
    unfold selFilter at *
    rw [List.filter_cons, List.filter_cons]
    have hb : (true && decide (lv ≤ kv.2)) = decide (lv ≤ kv.2) := by simp
    rw [hb, ih]

theorem nonSelFilter_true (lv : Nat) (items : List (List Nat × Nat)) :
    nonSelFilter true lv items
      = items.filter (fun kv => !decide (lv ≤ kv.2)) := by
  induction items with
  | nil => rfl
  | cons kv rest ih =>
    unfold nonSelFilter at *
    rw [List.filter_cons, List.filter_cons]
    have hb : (!(true && decide (lv ≤ kv.2))) = !decide (lv ≤ kv.2) := by simp
    rw [hb, ih]

/-- The scaled mass of the entries of `items` hashing to cell `(i, j)`
— what Claim C4 calls the contribution `cnt·ratio` of each routed key. -/
def cellMass (hash : List Nat → Nat × Nat) (ratio w i j : Nat)
    (items : List (List Nat × Nat)) : Nat :=
  scaledSum ratio (items.filter (fun kv =>
    decide (cellIndex (hash kv.1).1 (hash kv.1).2 i w = j)))

theorem getD_replicate {α : Type} (a dflt : α) :
    ∀ (n i : Nat), (List.replicate n a).getD i dflt
      = if i < n then a else dflt := by
  intro n
  induction n with
  | zero => intro i; simp
  | succ n ih =>
    intro i
    cases i with
    | zero => simp [List.replicate]
    | succ i =>
      rw [List.replicate, List.getD_cons_succ, ih i]
      by_cases h : i < n
      · rw [if_pos h, if_pos (by omega)]
      · rw [if_neg h, if_neg (by omega)]

theorem getCell_new (d w i j : Nat) : getCell (NewCMSketch d w) i j = 0 := by
  unfold getCell NewCMSketch
  simp only
  rw [getD_replicate]
  by_cases hi : i < d
  · rw [if_pos hi, getD_replicate]
    by_cases hj : j < w
    · rw [if_pos hj]
    · rw [if_neg hj]
  · rw [if_neg hi]
    simp

theorem newCMSketch_rows (d w : Nat) :
    ∀ row ∈ (NewCMSketch d w).table, row.length = w := by
  intro row hr
  rw [List.eq_of_mem_replicate hr]
  exact List.length_replicate w 0

theorem newCMSketch_cells (d w : Nat) :
    ∀ row ∈ (NewCMSketch d w).table, ∀ x ∈ row, x < M32 := by
  intro row hr x hx
  rw [List.eq_of_mem_replicate hr] at hx
  rw [List.eq_of_mem_replicate hx]
  norm_num [M32]

theorem buildTopNMap_eq_fold (hash : List Nat → Nat × Nat)
    (tl : List (List Nat × Nat)) :
    buildTopNMap hash tl = tl.foldl (buildStep hash) [] := rfl

/-- Claim C4: the builder enables the Top-N index exactly when
`S/10 ≤ sumTopN`.  When disabled, no Top-N index is built and every
counter entry contributes `cnt·ratio` to the table (count and every
cell are the wrapped sums of these contributions).  When enabled, every
key with `cnt ≥ lastVal` becomes a Top-N entry with exact count
`cnt·ratio`, and every other key contributes `cnt·ratio` to the
table. -/
theorem c4_builder (hash : List Nat → Nat × Nat) (helper : TopNHelper)
    (d w ratio : Nat) (hw : 0 < w)
    (hnodup : (helper.counter.map Prod.fst).Nodup)
    (hprod : ∀ kv ∈ helper.counter, kv.2 * ratio < M64) :
    (¬(helper.sampleSize / 10 ≤ helper.sumTopN) →
      (buildCMSWithTopN hash helper d w ratio).1.topN = none ∧
      (buildCMSWithTopN hash helper d w ratio).1.count
        = scaledSum ratio helper.counter % M64 ∧
      (∀ i j, i < d → j < w →
        getCell (buildCMSWithTopN hash helper d w ratio).1 i j
          = cellMass hash ratio w i j helper.counter % M32)) ∧
    ((helper.sampleSize / 10 ≤ helper.sumTopN) →
      (∀ kv ∈ helper.counter, helper.lastVal ≤ kv.2 →
        queryTopN (buildCMSWithTopN hash helper d w ratio).1
          (hash kv.1).1 (hash kv.1).2 kv.1 = some (kv.2 * ratio)) ∧
      (buildCMSWithTopN hash helper d w ratio).1.count
        = scaledSum ratio (helper.counter.filter
            (fun kv => !decide (helper.lastVal ≤ kv.2))) % M64 ∧
      (∀ i j, i < d → j < w →
        getCell (buildCMSWithTopN hash helper d w ratio).1 i j
          = cellMass hash ratio w i j (helper.counter.filter
              (fun kv => !decide (helper.lastVal ≤ kv.2))) % M32)) := by
  constructor
  · intro hP
    have he : decide (helper.sampleSize / 10 ≤ helper.sumTopN) = false :=
      decide_eq_false hP
    have hch := buildLoop_char hash false helper.lastVal ratio helper.counter
      (NewCMSketch d w) [] 0 rfl (by norm_num [NewCMSketch, M64])
      (by norm_num [M64]) (newCMSketch_rows d w) (newCMSketch_cells d w) hw
    obtain ⟨h1, _, _, _, h5, _, _, _, _, _, h11⟩ := hch
    simp only [buildCMSWithTopN, he, Bool.false_eq_true, if_false]
    have hc0 : (NewCMSketch d w).count = 0 := rfl
    refine ⟨h1, ?_, ?_⟩
    · rw [h5, nonSelFilter_false, hc0, Nat.zero_add]
    · intro i j hi hj
      have hlen : (NewCMSketch d w).table.length = d :=
        List.length_replicate d _
      rw [h11 i j (by rw [hlen]; exact hi) hj, getCell_new]
      have hmass : hitSum hash false helper.lastVal ratio
          (NewCMSketch d w).width i j helper.counter
          = cellMass hash ratio w i j helper.counter := by
        unfold hitSum cellMass
        rw [nonSelFilter_false]
        rfl
      rw [Nat.zero_add, hmass]
  · intro hP
    have he : decide (helper.sampleSize / 10 ≤ helper.sumTopN) = true :=
      decide_eq_true hP
    have hch := buildLoop_char hash true helper.lastVal ratio helper.counter
      (NewCMSketch d w) [] 0 rfl (by norm_num [NewCMSketch, M64])
      (by norm_num [M64]) (newCMSketch_rows d w) (newCMSketch_cells d w) hw
    obtain ⟨h1, _, _, _, h5, h6, _, _, _, _, h11⟩ := hch
    simp only [buildCMSWithTopN, he, if_true]
    refine ⟨?_, ?_, ?_⟩
    · intro kv hkv hle
      show probeBucket (bucketOf (buildTopNMap hash
        (buildLoop hash true helper.lastVal ratio helper.counter
          (NewCMSketch d w) [] 0).2.1) (hash kv.1).1) (hash kv.1).2 kv.1
        = some (kv.2 * ratio)
      rw [h6, List.nil_append, selFilter_true, buildTopNMap_eq_fold]
      have hmem : (kv.1, kv.2 * ratio % M64) ∈
          (helper.counter.filter (fun kv => decide (helper.lastVal ≤ kv.2))).map
            (fun kv => (kv.1, kv.2 * ratio % M64)) :=
        List.mem_map_of_mem _ (List.mem_filter.mpr ⟨hkv, by simpa using hle⟩)
      have hnd : (((helper.counter.filter
          (fun kv => decide (helper.lastVal ≤ kv.2))).map
            (fun kv => (kv.1, kv.2 * ratio % M64))).map Prod.fst).Nodup := by
        rw [List.map_map]
        have hsub : List.Sublist
            ((helper.counter.filter
              (fun kv => decide (helper.lastVal ≤ kv.2))).map
                (Prod.fst ∘ fun kv => (kv.1, kv.2 * ratio % M64)))
            (helper.counter.map Prod.fst) :=
          List.Sublist.map _ (List.filter_sublist _)
        exact hnodup.sublist hsub
      have := buildTopNMap_lookup hash _ [] hnd (by intro e he'; simp [entriesOf] at he')
        kv.1 (kv.2 * ratio % M64) hmem
      rw [this, Nat.mod_eq_of_lt (hprod kv hkv)]
    · show (buildLoop hash true helper.lastVal ratio helper.counter
        (NewCMSketch d w) [] 0).1.count = _
      have hc0 : (NewCMSketch d w).count = 0 := rfl
      rw [h5, nonSelFilter_true, hc0, Nat.zero_add]
    · intro i j hi hj
      have hlen : (NewCMSketch d w).table.length = d :=
        List.length_replicate d _
      show getCell (buildLoop hash true helper.lastVal ratio helper.counter
        (NewCMSketch d w) [] 0).1 i j = _
      rw [h11 i j (by rw [hlen]; exact hi) hj, getCell_new]
      have hmass : hitSum hash true helper.lastVal ratio
          (NewCMSketch d w).width i j helper.counter
          = cellMass hash ratio w i j (helper.counter.filter
              (fun kv => !decide (helper.lastVal ≤ kv.2))) := by
        unfold hitSum cellMass
        rw [nonSelFilter_true]
        rfl
      rw [Nat.zero_add, hmass]

/-- A concrete helper for the builder witnesses: sample `[1] ×2, [2] ×1`
(`S = 3`, `sorted = [2,1]`, one only-once key, `sumTopN = 2`,
`lastVal = 2`). -/
def wHelper : TopNHelper :=
  { sampleSize := 3, numTop := 1, counter := [([1], 2), ([2], 1)],
    sorted := [2, 1], onlyOnceItems := 1, sumTopN := 2, lastVal := 2 }

/-- Witness for C4: on `wHelper` (Top-N enabled since `3/10 = 0 ≤ 2`),
the heavy key `[1]` gets the exact Top-N count `2·1`, and the count
field carries only the light key's mass. -/
theorem c4_builder_witness :
    queryTopN (buildCMSWithTopN testHash wHelper 1 2 1).1
      (testHash [1]).1 (testHash [1]).2 [1] = some (2 * 1) ∧
    (buildCMSWithTopN testHash wHelper 1 2 1).1.count = 1 := by
  have h := c4_builder testHash wHelper 1 2 1 (by decide) (by decide)
    (by decide)
  have h2 := h.2 (by decide)
  refine ⟨h2.1 ([1], 2) (by decide) (by decide), ?_⟩
  rw [h2.2.1]
  decide

theorem wsub_add_mod_eq (e s o : Nat) (hs : s < e + o) (heo : e + o < M64) :
    (wsub M64 e s + o) % M64 = e + o - s := by
  unfold wsub
  have hM : 0 < M64 := by norm_num [M64]
  rw [Nat.mod_eq_of_lt (show e < M64 by omega),
    Nat.mod_eq_of_lt (show s < M64 by omega), Nat.mod_add_mod]
  rw [show e + (M64 - s) + o = M64 + (e + o - s) from by omega]
  rw [Nat.add_mod_left, Nat.mod_eq_of_lt (by omega)]

/-- The default value exactly as Claim C5 states it: the first matching
branch of the cascade.  The final divisor `estimateNDV − sampleNDV +
onlyOnce` is evaluated left-to-right in 64-bit arithmetic by the code;
under the guard of the third branch it equals
`estimateNDV + onlyOnce − sampleNDV`, which is the form used here. -/
def claimDefaultValC5 (rowCount scaledTopN estimateNDV numTop sampleNDV
    onlyOnce S ratio : Nat) : Nat :=
  if rowCount ≤ scaledTopN then 1
  else if estimateNDV ≤ numTop then 1
  else if estimateNDV + onlyOnce ≤ sampleNDV then 1
  else (rowCount - (S - onlyOnce) * ratio) / (estimateNDV + onlyOnce - sampleNDV)

/-- Branch structure of `calculateDefaultVal`, read off the field. -/
theorem calculateDefaultVal_defaultValue (c : CMSketch)
    (helper : TopNHelper) (e ratio rowCount : Nat) :
    (calculateDefaultVal c helper e ratio rowCount).defaultValue
      = if rowCount ≤ helper.sumTopN then 1
        else if e ≤ helper.numTop then 1
        else if (e + helper.onlyOnceItems) % M64 ≤ helper.sorted.length then 1
        else wsub M64 rowCount
            (wsub M64 helper.sampleSize helper.onlyOnceItems * ratio % M64)
          / ((wsub M64 e helper.sorted.length + helper.onlyOnceItems) % M64) := by
  unfold calculateDefaultVal
  by_cases b1 : rowCount ≤ helper.sumTopN
  · rw [if_pos b1, if_pos b1]
  · rw [if_neg b1, if_neg b1]
    by_cases b2 : e ≤ helper.numTop
    · rw [if_pos b2, if_pos b2]
    · rw [if_neg b2, if_neg b2]
      by_cases b3 : (e + helper.onlyOnceItems) % M64 ≤ helper.sorted.length
      · rw [if_pos b3, if_pos b3]
      · rw [if_neg b3, if_neg b3]

/-- Claim C5: after a Top-N build (`enableTopN` holds), the pipeline
`NewCMSketchWithTopN` computes `defaultValue` by the claimed cascade,
with `scaledTopN` the scaled mass of the selected heavy hitters,
`numTop` the post-cutoff Top-N size, `ratio = max(1, rowCount/S)`
(spec-modelled, `calculateEstimateNDV` is not in `src/`), and
`estimateNDV` the opaque estimator value.  The side conditions rule out
64-bit wrap-around in the subtractions and products involved. -/
theorem c5_default_value (hash : List Nat → Nat × Nat) (helper : TopNHelper)
    (d w estimateNDV rowCount : Nat) (hw : 0 < w)
    (henable : helper.sampleSize / 10 ≤ helper.sumTopN)
    (hS : helper.sampleSize < M64)
    (hOS : helper.onlyOnceItems ≤ helper.sampleSize)
    (hrow : rowCount < M64)
    (heo : estimateNDV + helper.onlyOnceItems < M64)
    (hprodS : (helper.sampleSize - helper.onlyOnceItems)
        * specRatio rowCount helper.sampleSize ≤ rowCount)
    (hsum : scaledSum (specRatio rowCount helper.sampleSize)
        (helper.counter.filter
          (fun kv => decide (helper.lastVal ≤ kv.2))) < M64) :
    (newCMSketchWithTopNModel hash helper d w estimateNDV rowCount).defaultValue
      = claimDefaultValC5 rowCount
          (scaledSum (specRatio rowCount helper.sampleSize)
            (helper.counter.filter (fun kv => decide (helper.lastVal ≤ kv.2))))
          estimateNDV
          ((helper.counter.filter
            (fun kv => decide (helper.lastVal ≤ kv.2))).length)
          helper.sorted.length helper.onlyOnceItems helper.sampleSize
          (specRatio rowCount helper.sampleSize) := by
  have he : decide (helper.sampleSize / 10 ≤ helper.sumTopN) = true :=
    decide_eq_true henable
  have hch := buildLoop_char hash true helper.lastVal
    (specRatio rowCount helper.sampleSize) helper.counter
    (NewCMSketch d w) [] 0 rfl (by norm_num [NewCMSketch, M64])
    (by norm_num [M64]) (newCMSketch_rows d w) (newCMSketch_cells d w) hw
  obtain ⟨_, _, _, _, _, h6, h7, _, _, _, _⟩ := hch
  simp only [newCMSketchWithTopNModel, buildCMSWithTopN, he, if_true,
    calculateDefaultVal_defaultValue]
  rw [h6, h7, List.nil_append, List.length_map, Nat.zero_add, selFilter_true,
    Nat.mod_eq_of_lt hsum]
  unfold claimDefaultValC5
  by_cases b1 : rowCount ≤ scaledSum (specRatio rowCount helper.sampleSize)
      (helper.counter.filter (fun kv => decide (helper.lastVal ≤ kv.2)))
  · rw [if_pos b1, if_pos b1]
  · rw [if_neg b1, if_neg b1]
    by_cases b2 : estimateNDV ≤ (helper.counter.filter
        (fun kv => decide (helper.lastVal ≤ kv.2))).length
    · rw [if_pos b2, if_pos b2]
    · rw [if_neg b2, if_neg b2, Nat.mod_eq_of_lt heo]
      by_cases b3 : estimateNDV + helper.onlyOnceItems ≤ helper.sorted.length
      · rw [if_pos b3, if_pos b3]
      · rw [if_neg b3, if_neg b3, wsub_eq_sub hOS hS,
          Nat.mod_eq_of_lt (Nat.lt_of_le_of_lt hprodS hrow),
          wsub_eq_sub hprodS hrow,
          wsub_add_mod_eq estimateNDV helper.sorted.length
            helper.onlyOnceItems (by omega) heo]

/-- Witness for C5 at `wHelper` with `estimateNDV = 2`,
`rowCount = 3`: the else-branch yields `(3 − 2·1)/(2+1−2) = 1`. -/
theorem c5_default_value_witness :
    (newCMSketchWithTopNModel testHash wHelper 1 2 2 3).defaultValue
      = claimDefaultValC5 3
          (scaledSum (specRatio 3 wHelper.sampleSize)
            (wHelper.counter.filter (fun kv => decide (wHelper.lastVal ≤ kv.2))))
          2
          ((wHelper.counter.filter
            (fun kv => decide (wHelper.lastVal ≤ kv.2))).length)
          wHelper.sorted.length wHelper.onlyOnceItems wHelper.sampleSize
          (specRatio 3 wHelper.sampleSize) :=
  c5_default_value testHash wHelper 1 2 2 3 (by decide) (by decide)
    (by decide) (by decide) (by decide) (by decide) (by decide) (by decide)

/-! ## Claims C7, C8, C9: the codec -/

/-- A wire Top-N record: `data` is nil-able (it is stripped when the
payload is externalized). -/
structure ProtoTopN where
  data : Option (List Nat)
  count : Nat
deriving DecidableEq

/-- The wire message: the table rows and the optional Top-N records. -/
structure ProtoSketch where
  rows : List (List Nat)
  topN : Option (List ProtoTopN)
deriving DecidableEq

/-- The in-memory protobuf value built by `CMSketchToProto`.  Unlike a
wire message produced by `Unmarshal` (`ProtoSketch`, whose repeated
Top-N field materializes every element), its Top-N slice is a slice of
record POINTERS: slots the builder never writes keep their nil zero
value, modelled as `none` slots. -/
structure MemProtoSketch where
  rows : List (List Nat)
  topN : Option (List (Option ProtoTopN))
deriving DecidableEq

/-- `CMSketchToProto` (variant B): copy the table and flatten the Top-N
map, bucket by bucket, into wire records carrying the exact `data`.
The Go code allocates the Top-N slice with ONE SLOT PER BUCKET
(`make(..., len(c.topnindex))`) but writes ONE SLOT PER RECORD
(`protoSketch.TopN[seq]` with `seq` running over every record of every
bucket): as soon as the records outnumber the buckets — some bucket
holds two or more records — the write runs past the end of the slice
and the function panics (index out of range), modelled as `none`.
When the records fit, they occupy the leading slots in bucket order
and any slot left over (an empty bucket) stays nil.  (The row copy
allocates `depth × width` and copies the table into it: the identity
on tables of exactly the declared shape, which every theorem about the
encoder assumes.) -/
def CMSketchToProto (c : CMSketch) : Option MemProtoSketch :=
  match c.topN with
  | none => some { rows := c.table, topN := none }
  | some m =>
    if (entriesOf m).length ≤ m.length then
      some { rows := c.table,
             topN := some ((entriesOf m).map (fun e =>
                 some ({ data := some e.data, count := e.count } : ProtoTopN))
               ++ List.replicate (m.length - (entriesOf m).length) none) }
    else none

/-- The count recomputation of `CMSketchFromProto`: the Go loop resets
`c.count = 0` at the start of every row and then sums that row, so the
final value is the (wrapped) sum of the LAST row, not of row 0. -/
def protoCount (rows : List (List Nat)) : Nat :=
  rows.foldl (fun _ row => row.foldl (fun a x => (a + x) % M64) 0) 0

/-- The decode failure. -/
inductive DecodeError where
  | brokenTopN
deriving DecidableEq

/-- `CMSketchFromProto` (variant B): rebuild the table and `count`;
if Top-N records are present, fail with `BrokenTopN` when any `data` is
missing, otherwise rebuild the Top-N map by re-hashing every `data`.
(The table copy is exact for wire tables whose rows all have the length
of row 0; a ragged wire table panics in Go and is outside every
theorem's hypotheses.) -/
def CMSketchFromProto (hash : List Nat → Nat × Nat) (p : ProtoSketch) :
    Except DecodeError CMSketch :=
  let c0 : CMSketch :=
    { depth := p.rows.length, width := (p.rows.headD []).length,
      count := protoCount p.rows, defaultValue := 0,
      table := p.rows, topN := none }
  match p.topN with
  | none => Except.ok c0
  | some ts =>
    if ts.any (fun t => decide (t.data = none)) then
      Except.error DecodeError.brokenTopN
    else
      Except.ok { c0 with topN := some (buildTopNMap hash
        (ts.map (fun t => (t.data.getD [], t.count)))) }

/-- The payload-stripping loop of `encodeCMSketch`: read each record's
`data` into the side channel and clear it in the proto, in slot order.
Reading a nil record pointer (a slot `CMSketchToProto` never wrote)
dereferences nil — the Go code panics, modelled as `none`. -/
def stripSlots : List (Option ProtoTopN) →
    Option (List ProtoTopN × List (Option (List Nat)))
  | [] => some ([], [])
  | none :: _ => none
  | some t :: rest =>
    match stripSlots rest with
    | none => none
    | some (ps, ds) => some (({ t with data := none }) :: ps, t.data :: ds)

/-- `encodeCMSketch`: absent payload for `count = 0`; otherwise build
the proto (propagating the `CMSketchToProto` panic), strip every Top-N
record's `data` into the side-channel payload list (a panic on any nil
slot), and return the stripped wire message plus the payloads. -/
def encodeCMSketch (c : CMSketch) :
    Option (Option ProtoSketch × List (Option (List Nat))) :=
  if c.count = 0 then some (none, [])
  else
    match CMSketchToProto c with
    | none => none
    | some p =>
      match p.topN with
      | none => some (some { rows := p.rows, topN := none }, [])
      | some ts =>
        match stripSlots ts with
        | none => none
        | some (ps, ds) =>
          some (some { rows := p.rows, topN := some ps }, ds)

/-- The re-attachment step of `decodeCMSketch`: when the side-channel
list matches the wire Top-N length, write each payload back. -/
def reattach (p : ProtoSketch) (topn : List (Option (List Nat))) :
    ProtoSketch :=
  match p.topN with
  | none => p
  | some ts =>
    if topn.length = ts.length then
      { p with topN := some (List.zipWith
          (fun t od => { t with data := od }) ts topn) }
    else p

/-- `decodeCMSketch`: absent blob or empty rows decode to the absent
sketch; otherwise re-attach payloads and rebuild. -/
def decodeCMSketch (hash : List Nat → Nat × Nat)
    (data : Option ProtoSketch) (topn : List (Option (List Nat))) :
    Except DecodeError (Option CMSketch) :=
  match data with
  | none => Except.ok none
  | some p =>
    if p.rows.length = 0 then Except.ok none
    else
      match CMSketchFromProto hash (reattach p topn) with
      | Except.error e => Except.error e
      | Except.ok c => Except.ok (some c)

/-- Cell-wise table comparison over the receiver's index ranges, as in
`Equal`. -/
def tablesEqual (t1 t2 : List (List Nat)) : Bool :=
  (t1.zip t2).all (fun rr =>
    (rr.1.zip rr.2).all (fun xy => decide (xy.1 = xy.2)))

/-- The unordered per-bucket probe of `Equal`. -/
def bucketMatch (v2 : List DataCount) (e : DataCount) : Bool :=
  v2.any (fun x => decide (x.h2 = e.h2) && decide (x.data = e.data) &&
    decide (x.count = e.count))

/-- Go map read with presence flag (`v2, ok := rc.topnindex[k]`). -/
def lookupTopN : TopNMap → Nat → Option (List DataCount)
  | [], _ => none
  | (k, v) :: rest, q => if k = q then some v else lookupTopN rest q

/-- The Top-N part of `Equal` (variant B): skipped when both maps are
empty, else equal sizes and every bucket of the receiver matched
unordered in the other map. -/
def topNEqual (m1 m2 : TopNMap) : Bool :=
  if decide (m1.length = 0) && decide (m2.length = 0) then true
  else
    decide (m1.length = m2.length) &&
    m1.all (fun kv =>
      match lookupTopN m2 kv.1 with
      | none => false
      | some v2 =>
        decide (kv.2.length = v2.length) && kv.2.all (bucketMatch v2))

/-- `Equal` (variant B, lines 838–876): nil handling, then width,
depth, `count`, `defaultValue`, cell-wise table, and the Top-N maps. -/
def equalSketch : Option CMSketch → Option CMSketch → Bool
  | none, none => true
  | none, some _ => false
  | some _, none => false
  | some c, some rc =>
    decide (c.width = rc.width) && decide (c.depth = rc.depth) &&
    decide (c.count = rc.count) && decide (c.defaultValue = rc.defaultValue) &&
    tablesEqual c.table rc.table &&
    topNEqual (c.topN.getD []) (rc.topN.getD [])

/-- Counterexample to Claim C8 as stated: a wire blob that declares a
Top-N record with missing `data` but has NO rows decodes to the absent
sketch with no error at all — the empty-rows check precedes the
`BrokenTopN` check. -/
theorem c8_broken_counterexample :
    decodeCMSketch testHash
      (some { rows := [], topN := some [{ data := none, count := 5 }] }) []
      = Except.ok none ∧
    decodeCMSketch testHash
      (some { rows := [], topN := some [{ data := none, count := 5 }] }) []
      ≠ Except.error DecodeError.brokenTopN := by
  refine ⟨rfl, ?_⟩
  intro h
  rw [show decodeCMSketch testHash
      (some { rows := [], topN := some [{ data := none, count := 5 }] }) []
      = Except.ok none from rfl] at h
  exact Except.noConfusion h

/-- Claim C8, amended with non-empty, uniform-width rows (a row longer
than row 0 makes the Go row copy panic before the broken-data check is
ever reached): if the wire blob has at least one row, the rows all have
row 0's width, and, after attempting to re-attach the supplied payload
list, some Top-N record still has no `data`, then decode fails with
`BrokenTopN` and returns no sketch. -/
theorem c8_decode_broken (hash : List Nat → Nat × Nat) (p : ProtoSketch)
    (topn : List (Option (List Nat))) (ts : List ProtoTopN)
    (hne : p.rows ≠ [])
    (huni : ∀ row ∈ p.rows, row.length = (p.rows.headD []).length)
    (hts : (reattach p topn).topN = some ts)
    (t : ProtoTopN) (htmem : t ∈ ts) (hmiss : t.data = none) :
    decodeCMSketch hash (some p) topn
      = Except.error DecodeError.brokenTopN := by
  have hlen : ¬(p.rows.length = 0) := by
    intro h
    exact hne (List.length_eq_zero.mp h)
  have hany : (ts.any fun t => decide (t.data = none)) = true :=
    List.any_eq_true.mpr ⟨t, htmem, by simp [hmiss]⟩
  have hfrom : CMSketchFromProto hash (reattach p topn)
      = Except.error DecodeError.brokenTopN := by
    unfold CMSketchFromProto
    rw [hts]
    simp [hany]
  simp only [decodeCMSketch]
  rw [if_neg hlen, hfrom]

/-- Witness for the amended C8: one row, one Top-N record whose `data`
stays missing because the side channel is empty. -/
theorem c8_decode_broken_witness :
    decodeCMSketch testHash
      (some { rows := [[0]], topN := some [{ data := none, count := 5 }] }) []
      = Except.error DecodeError.brokenTopN :=
  c8_decode_broken testHash
    { rows := [[0]], topN := some [{ data := none, count := 5 }] } []
    [{ data := none, count := 5 }] (by simp) (by decide) rfl
    { data := none, count := 5 } (by simp) rfl

theorem getLastD_irrel : ∀ (l : List (List Nat)) (a b : List Nat),
    l ≠ [] → l.getLastD a = l.getLastD b := by
  intro l a b hl
  cases l with
  | nil => exact absurd rfl hl
  | cons x xs => rfl

theorem getLastD_mem : ∀ (l : List (List Nat)) (d : List Nat), l ≠ [] →
    l.getLastD d ∈ l := by
  intro l
  induction l with
  | nil => intro d h; exact absurd rfl h
  | cons x xs ih =>
    intro d _
    cases xs with
    | nil => exact List.mem_cons_self _ _
    | cons y ys =>
      have := ih x (by simp)
      rw [List.getLastD_cons]
      exact List.mem_cons_of_mem _ this

/-- The Go double loop resets `count` per row: the result is the
wrapped sum of the last row. -/
theorem protoCount_last : ∀ (rows : List (List Nat)), rows ≠ [] →
    protoCount rows
      = (rows.getLastD []).foldl (fun a x => (a + x) % M64) 0 := by
  have haux : ∀ (rows : List (List Nat)) (a : Nat), rows ≠ [] →
      rows.foldl (fun _ row => row.foldl (fun a x => (a + x) % M64) 0) a
        = (rows.getLastD []).foldl (fun a x => (a + x) % M64) 0 := by
    intro rows
    induction rows with
    | nil => intro a h; exact absurd rfl h
    | cons r rest ih =>
      intro a _
      rw [List.foldl_cons]
      cases rest with
      | nil => rfl
      | cons r2 rest2 =>
        rw [ih _ (by simp)]
        have h2 : ((r :: r2 :: rest2).getLastD ([] : List Nat))
            = (r2 :: rest2).getLastD r := List.getLastD_cons _ _ _
        rw [h2]
        exact congrArg (fun row => row.foldl (fun a x => (a + x) % M64) 0)
          (getLastD_irrel (r2 :: rest2) [] r (by simp))
  intro rows h
  exact haux rows 0 h

/-- Counterexample to Claim C9 as stated: decoding the two-row wire
table `[[1,0],[0,2]]` yields `count = 2` (the last row's sum), not the
row-0 sum `1`. -/
theorem c9_count_counterexample :
    (decodeCMSketch testHash (some { rows := [[1, 0], [0, 2]], topN := none })
      []).map (Option.map CMSketch.count) = Except.ok (some 2) ∧
    [1, 0].foldl (fun a x => (a + x) % M64) 0 = 1 ∧ (2 : Nat) ≠ 1 := by
  refine ⟨rfl, rfl, by decide⟩

/-- Claim C9, amended: for every decoded wire sketch with non-empty
(and uniform-width, as Go requires on pain of panic) rows, the rebuilt
`count` equals the wrapped sum of the counters of the LAST row,
`rows[d−1]`. -/
theorem c9_decode_count (hash : List Nat → Nat × Nat) (p : ProtoSketch)
    (topn : List (Option (List Nat))) (hne : p.rows ≠ [])
    (huni : ∀ row ∈ p.rows, row.length = (p.rows.headD []).length)
    (c : CMSketch)
    (hdec : decodeCMSketch hash (some p) topn = Except.ok (some c)) :
    c.count = (p.rows.getLastD []).foldl (fun a x => (a + x) % M64) 0 := by
  have hlen : ¬(p.rows.length = 0) := by
    intro h
    exact hne (List.length_eq_zero.mp h)
  simp only [decodeCMSketch] at hdec
  rw [if_neg hlen] at hdec
  have hrows : (reattach p topn).rows = p.rows := by
    unfold reattach
    split
    · rfl
    · split
      · rfl
      · rfl
  unfold CMSketchFromProto at hdec
  rcases htn : (reattach p topn).topN with _ | ts
  · rw [htn] at hdec
    simp only [Except.ok.injEq, Option.some.injEq] at hdec
    rw [← hdec]
    show protoCount (reattach p topn).rows = _
    rw [hrows]
    exact protoCount_last p.rows hne
  · rw [htn] at hdec
    by_cases hany : (ts.any (fun t => decide (t.data = none))) = true
    · simp [hany] at hdec
    · rw [Bool.not_eq_true] at hany
      simp only [hany, Bool.false_eq_true, if_false, Except.ok.injEq,
        Option.some.injEq] at hdec
      rw [← hdec]
      show protoCount (reattach p topn).rows = _
      rw [hrows]
      exact protoCount_last p.rows hne

/-- Witness for the amended C9 at the counterexample blob. -/
theorem c9_decode_count_witness :
    ({ depth := 2, width := 2, count := 2, defaultValue := 0,
       table := [[1, 0], [0, 2]], topN := none } : CMSketch).count
      = ([[1, 0], [0, 2]].getLastD []).foldl (fun a x => (a + x) % M64) 0 :=
  c9_decode_count testHash { rows := [[1, 0], [0, 2]], topN := none } []
    (by simp) (by decide) _ rfl

/-- Well-formedness of a Top-N map, as the builder and the decoder
produce it: distinct bucket keys, non-empty buckets, and every record
carrying its own hash (`h1` is the bucket key and `(h1, h2)` is the
hash of `data`). -/
def WFTopNMap (hash : List Nat → Nat × Nat) (m : TopNMap) : Prop :=
  (m.map Prod.fst).Nodup ∧
  ∀ kv ∈ m, kv.2 ≠ [] ∧ ∀ e ∈ kv.2, e.h1 = kv.1 ∧ hash e.data = (e.h1, e.h2)

theorem topNInsert_new : ∀ (m : TopNMap) (k : Nat) (e : DataCount),
    k ∉ m.map Prod.fst → topNInsert m k e = m ++ [(k, [e])] := by
  intro m
  induction m with
  | nil => intro k e _; rfl
  | cons kv rest ih =>
    intro k e hk
    rw [List.map_cons] at hk
    match kv with
    | (k', v) =>
      rw [topNInsert, if_neg (by
        intro h
        exact hk (by rw [h]; exact List.mem_cons_self _ _))]
      rw [ih k e (fun h => hk (List.mem_cons_of_mem _ h))]
      rfl

theorem topNInsert_last : ∀ (m0 : TopNMap) (k : Nat) (v : List DataCount)
    (e : DataCount), k ∉ m0.map Prod.fst →
    topNInsert (m0 ++ [(k, v)]) k e = m0 ++ [(k, v ++ [e])] := by
  intro m0
  induction m0 with
  | nil => intro k v e _; simp [topNInsert]
  | cons kv rest ih =>
    intro k v e hk
    rw [List.map_cons] at hk
    match kv with
    | (k', v') =>
      rw [List.cons_append, topNInsert, if_neg (by
        intro h
        exact hk (by rw [h]; exact List.mem_cons_self _ _))]
      rw [ih k v e (fun h => hk (List.mem_cons_of_mem _ h))]
      rfl

theorem fold_bucket (hash : List Nat → Nat × Nat) (k : Nat) :
    ∀ (es : List DataCount) (m0 : TopNMap) (v : List DataCount),
      k ∉ m0.map Prod.fst →
      (∀ e ∈ es, e.h1 = k ∧ hash e.data = (e.h1, e.h2)) →
      (es.map (fun e => (e.data, e.count))).foldl (buildStep hash)
        (m0 ++ [(k, v)])
        = m0 ++ [(k, v ++ es)] := by
  intro es
  induction es with
  | nil => intro m0 v _ _; simp
  | cons e es' ih =>
    intro m0 v hk hwf
    obtain ⟨hh1, hhash⟩ := hwf e (List.mem_cons_self _ _)
    rw [List.map_cons, List.foldl_cons]
    have hstep : buildStep hash (m0 ++ [(k, v)]) (e.data, e.count)
        = m0 ++ [(k, v ++ [e])] := by
      unfold buildStep
      have h1 : (hash e.data).1 = k := by rw [hhash, hh1]
      have h2 : (⟨(hash e.data).1, (hash e.data).2, e.data, e.count⟩ :
          DataCount) = e := by
        rw [hhash]
      rw [h2, h1]
      exact topNInsert_last m0 k v e hk
    rw [hstep, ih m0 (v ++ [e]) hk
      (fun e' he' => hwf e' (List.mem_cons_of_mem _ he'))]
    rw [List.append_assoc, List.singleton_append]

/-- Re-inserting the flattened records of a well-formed Top-N map
rebuilds exactly that map (appended to any disjoint prefix). -/
theorem buildTopNMap_regroup (hash : List Nat → Nat × Nat) :
    ∀ (m m0 : TopNMap),
      (m.map Prod.fst).Nodup →
      (∀ kv ∈ m, kv.2 ≠ [] ∧
        ∀ e ∈ kv.2, e.h1 = kv.1 ∧ hash e.data = (e.h1, e.h2)) →
      (∀ k ∈ m.map Prod.fst, k ∉ m0.map Prod.fst) →
      ((entriesOf m).map (fun e => (e.data, e.count))).foldl
        (buildStep hash) m0
        = m0 ++ m := by
  intro m
  induction m with
  | nil => intro m0 _ _ _; simp [entriesOf]
  | cons kv rest ih =>
    intro m0 hnd hwf hdisj
    match kv with
    | (k, es) =>
      obtain ⟨hne, hes⟩ := hwf (k, es) (List.mem_cons_self _ _)
      have hkm0 : k ∉ m0.map Prod.fst :=
        hdisj k (by rw [List.map_cons]; exact List.mem_cons_self _ _)
      have hent : entriesOf ((k, es) :: rest) = es ++ entriesOf rest := rfl
      rw [hent, List.map_append, List.foldl_append]
      cases es with
      | nil => exact absurd rfl hne
      | cons e0 es0 =>
        obtain ⟨hh1, hhash⟩ := hes e0 (List.mem_cons_self _ _)
        rw [List.map_cons, List.foldl_cons]
        have hstep : buildStep hash m0 (e0.data, e0.count)
            = m0 ++ [(k, [e0])] := by
          unfold buildStep
          have h1 : (hash e0.data).1 = k := by rw [hhash, hh1]
          have h2 : (⟨(hash e0.data).1, (hash e0.data).2, e0.data,
              e0.count⟩ : DataCount) = e0 := by
            rw [hhash]
          rw [h2, h1]
          exact topNInsert_new m0 k e0 hkm0
        rw [hstep, fold_bucket hash k es0 m0 [e0] hkm0
          (fun e' he' => hes e' (List.mem_cons_of_mem _ he'))]
        rw [List.singleton_append]
        have hm0' : ∀ k' ∈ rest.map Prod.fst,
            k' ∉ (m0 ++ [(k, e0 :: es0)]).map Prod.fst := by
          intro k' hk'
          rw [List.map_append, List.mem_append]
          intro hcase
          rcases hcase with h | h
          · exact hdisj k' (by rw [List.map_cons]; exact List.mem_cons_of_mem _ hk') h
          · simp only [List.map_cons, List.map_nil, List.mem_singleton] at h
            rw [List.map_cons] at hnd
            have := (List.nodup_cons.mp hnd).1
            rw [h] at hk'
            exact this hk'
        rw [ih (m0 ++ [(k, e0 :: es0)])
          (by rw [List.map_cons] at hnd; exact (List.nodup_cons.mp hnd).2)
          (fun kv' hkv' => hwf kv' (List.mem_cons_of_mem _ hkv')) hm0']
        rw [List.append_assoc, List.singleton_append]

theorem zipWith_map_same {α β γ δ : Type} (f : β → γ → δ) (g : α → β)
    (h : α → γ) : ∀ (l : List α),
    List.zipWith f (l.map g) (l.map h) = l.map (fun x => f (g x) (h x)) := by
  intro l
  induction l with
  | nil => rfl
  | cons x xs ih => simp [ih]

/-- A Top-N map all of whose buckets are singletons has exactly one
record per bucket. -/
theorem entriesOf_length_singleton : ∀ (m : TopNMap),
    (∀ kv ∈ m, kv.2.length = 1) → (entriesOf m).length = m.length := by
  intro m
  induction m with
  | nil => intro _; rfl
  | cons kv rest ih =>
    intro h
    have h1 := h kv (List.mem_cons_self _ _)
    show (kv.2 ++ entriesOf rest).length = rest.length + 1
    rw [List.length_append, h1,
      ih (fun kv' h' => h kv' (List.mem_cons_of_mem _ h'))]
    omega

/-- Stripping a slot list with no nil pointers succeeds and splits each
record into its cleared proto record and its payload. -/
theorem stripSlots_somes : ∀ (es : List ProtoTopN),
    stripSlots (es.map some)
      = some (es.map (fun t => { t with data := none }),
              es.map (fun t => t.data)) := by
  intro es
  induction es with
  | nil => rfl
  | cons t ts ih => simp [stripSlots, ih]

theorem tablesEqual_refl : ∀ (t : List (List Nat)), tablesEqual t t = true := by
  intro t
  induction t with
  | nil => rfl
  | cons r rest ih =>
    unfold tablesEqual at *
    rw [List.zip_cons_cons, List.all_cons, ih, Bool.and_true]
    induction r with
    | nil => rfl
    | cons x xs ihr =>
      rw [List.zip_cons_cons, List.all_cons, ihr]
      simp

theorem lookupTopN_self : ∀ (m : TopNMap), (m.map Prod.fst).Nodup →
    ∀ kv ∈ m, lookupTopN m kv.1 = some kv.2 := by
  intro m
  induction m with
  | nil => intro _ kv hkv; simp at hkv
  | cons kv0 rest ih =>
    intro hnd kv hkv
    rw [List.map_cons] at hnd
    obtain ⟨hhead, htail⟩ := List.nodup_cons.mp hnd
    match kv0 with
    | (k0, v0) =>
      rcases List.mem_cons.mp hkv with heq | hrest
      · rw [heq, lookupTopN, if_pos rfl]
      · rw [lookupTopN, if_neg (by
          intro h
          apply hhead
          rw [h]
          exact List.mem_map.mpr ⟨kv, hrest, rfl⟩)]
        exact ih htail kv hrest

theorem topNEqual_refl (m : TopNMap) (hnd : (m.map Prod.fst).Nodup) :
    topNEqual m m = true := by
  unfold topNEqual
  by_cases h0 : m.length = 0
  · rw [if_pos (by simp [h0])]
  · rw [if_neg (by simp [h0])]
    rw [Bool.and_eq_true]
    refine ⟨by simp, ?_⟩
    rw [List.all_eq_true]
    intro kv hkv
    rw [lookupTopN_self m hnd kv hkv]
    rw [Bool.and_eq_true]
    refine ⟨by simp, ?_⟩
    rw [List.all_eq_true]
    intro e he
    exact List.any_eq_true.mpr ⟨e, he, by simp⟩

/-- `Equal` is reflexive on sketches with distinct Top-N bucket keys. -/
theorem equalSketch_refl (c : CMSketch)
    (hnd : ((c.topN.getD []).map Prod.fst).Nodup) :
    equalSketch (some c) (some c) = true := by
  show (decide (c.width = c.width) && decide (c.depth = c.depth) &&
    decide (c.count = c.count) && decide (c.defaultValue = c.defaultValue) &&
    tablesEqual c.table c.table &&
    topNEqual (c.topN.getD []) (c.topN.getD [])) = true
  rw [tablesEqual_refl, topNEqual_refl _ hnd]
  simp

/-- The sketch used to refute Claim C7 as stated: a full Top-N build
(`wHelper`, `estimateNDV = 2`, `rowCount = 3`), whose `defaultValue`
is 1. -/
def c7Cex : CMSketch := newCMSketchWithTopNModel testHash wHelper 1 2 2 3

/-- A sketch whose Top-N index holds an `h1` collision: under the
test hash, the records `[7]` and `[7, 9]` share the bucket key 7. -/
def c7Panic : CMSketch :=
  { depth := 1, width := 2, count := 9, defaultValue := 0,
    table := [[9, 0]],
    topN := some [(7, [⟨7, 1, [7], 5⟩, ⟨7, 2, [7, 9], 4⟩])] }

/-- Counterexample to Claim C7 as stated, in both of its failure modes.
Encoding and decoding the constructed sketch `c7Cex` succeeds but
yields a sketch that is NOT `Equal` to it — the wire format carries no
`defaultValue`, the decoder leaves it 0, and `Equal` compares it.  And
on `c7Panic`, whose Top-N index holds a two-record bucket, `Encode`
does not return at all: `CMSketchToProto` allocates one Top-N slot per
bucket but writes one slot per record, running past the end of the
slice. -/
theorem c7_roundtrip_counterexample :
    (encodeCMSketch c7Cex).map (fun e =>
        (decodeCMSketch testHash e.1 e.2).map
          (fun r => equalSketch r (some c7Cex)))
      = some (Except.ok false) ∧
    encodeCMSketch c7Panic = none := by
  exact ⟨rfl, rfl⟩

/-- Claim C7, amended: for every sketch with nonzero `count`, zero
`defaultValue`, a table of the declared shape whose every row sums
(mod 2^64) to `count`, and a well-formed Top-N index all of whose
buckets hold exactly one record (the only shape on which the
per-bucket slot allocation of `CMSketchToProto` does not panic),
encoding succeeds and decoding the encoding — threading the
externalized payload list back in — returns exactly the original
sketch, hence one `Equal` to it. -/
theorem c7_roundtrip (hash : List Nat → Nat × Nat) (c : CMSketch)
    (hd : c.table ≠ [])
    (hdep : c.table.length = c.depth)
    (hwid : ∀ row ∈ c.table, row.length = c.width)
    (hsum : ∀ row ∈ c.table, row.foldl (fun a x => (a + x) % M64) 0 = c.count)
    (hcnt : c.count ≠ 0) (hdv : c.defaultValue = 0)
    (htopn : ∀ m, c.topN = some m → WFTopNMap hash m)
    (hone : ∀ m, c.topN = some m → ∀ kv ∈ m, kv.2.length = 1) :
    ∃ blob payload, encodeCMSketch c = some (blob, payload) ∧
      decodeCMSketch hash blob payload = Except.ok (some c) ∧
      equalSketch (some c) (some c) = true := by
  have hwhead : (c.table.headD []).length = c.width := by
    cases htab : c.table with
    | nil => exact absurd htab hd
    | cons r rest =>
      have hmem : r ∈ c.table := by
        rw [htab]
        exact List.mem_cons_self _ _
      rw [List.headD_cons]
      exact hwid r hmem
  have hcount_eq : protoCount c.table = c.count := by
    rw [protoCount_last c.table hd]
    exact hsum _ (getLastD_mem c.table [] hd)
  have hlen0 : ¬(c.table.length = 0) := fun h => hd (List.length_eq_zero.mp h)
  have hnd : ((c.topN.getD []).map Prod.fst).Nodup := by
    cases htn : c.topN with
    | none => simp
    | some m => exact (htopn m htn).1
  rcases htn : c.topN with _ | m
  · have hp : CMSketchToProto c = some { rows := c.table, topN := none } := by
      unfold CMSketchToProto
      rw [htn]
    have henc : encodeCMSketch c
        = some (some { rows := c.table, topN := none }, []) := by
      unfold encodeCMSketch
      rw [if_neg hcnt, hp]
    refine ⟨some { rows := c.table, topN := none }, [], henc, ?_,
      equalSketch_refl c hnd⟩
    simp only [decodeCMSketch]
    rw [if_neg hlen0]
    have hfp : CMSketchFromProto hash
        (reattach { rows := c.table, topN := none } [])
        = Except.ok c := by
      show Except.ok
          ({ depth := c.table.length,
             width := (c.table.headD []).length,
             count := protoCount c.table,
             defaultValue := 0,
             table := c.table,
             topN := none } : CMSketch)
        = Except.ok c
      rw [hdep, hwhead, hcount_eq, ← hdv, ← htn]
    rw [hfp]
  · have hWF := htopn m htn
    have hlenent : (entriesOf m).length = m.length :=
      entriesOf_length_singleton m (hone m htn)
    set flat := (entriesOf m).map
      (fun e => ({ data := some e.data, count := e.count } : ProtoTopN))
      with hflat
    have hp : CMSketchToProto c
        = some { rows := c.table, topN := some (flat.map some) } := by
      unfold CMSketchToProto
      rw [htn]
      show (if (entriesOf m).length ≤ m.length then
          some ({ rows := c.table,
                  topN := some ((entriesOf m).map (fun e =>
                      some ({ data := some e.data,
                              count := e.count } : ProtoTopN))
                    ++ List.replicate (m.length - (entriesOf m).length)
                        none) } : MemProtoSketch)
        else none)
        = some { rows := c.table, topN := some (flat.map some) }
      rw [if_pos (by omega), hlenent, Nat.sub_self, List.replicate_zero,
        List.append_nil, hflat, List.map_map]
      rfl
    have henc : encodeCMSketch c
        = some (some { rows := c.table,
                       topN := some (flat.map
                         (fun t => ({ t with data := none } : ProtoTopN))) },
           flat.map (fun t => t.data)) := by
      unfold encodeCMSketch
      rw [if_neg hcnt, hp]
      show (match stripSlots (flat.map some) with
            | none => none
            | some (ps, ds) =>
              some (some ({ rows := c.table,
                            topN := some ps } : ProtoSketch), ds))
          = some (some { rows := c.table,
                         topN := some (flat.map
                           (fun t => ({ t with data := none } : ProtoTopN))) },
             flat.map (fun t => t.data))
      rw [stripSlots_somes flat]
    refine ⟨some { rows := c.table,
                   topN := some (flat.map
                     (fun t => ({ t with data := none } : ProtoTopN))) },
            flat.map (fun t => t.data), henc, ?_,
            equalSketch_refl c hnd⟩
    simp only [decodeCMSketch]
    rw [if_neg hlen0]
    have hnone : (flat.any fun t => decide (t.data = none)) = false := by
      rw [hflat]
      induction entriesOf m with
      | nil => rfl
      | cons e l ih => simp [ih]
    have hzip : List.zipWith (fun t od => ({ t with data := od } : ProtoTopN))
        (flat.map (fun t => ({ t with data := none } : ProtoTopN)))
        (flat.map (fun t => t.data))
        = flat := by
      rw [zipWith_map_same]
      exact List.map_id' flat
    have hre : reattach
        { rows := c.table,
          topN := some (flat.map
            (fun t => ({ t with data := none } : ProtoTopN))) }
        (flat.map (fun t => t.data))
        = { rows := c.table, topN := some flat } := by
      show (if (flat.map (fun t => t.data)).length
          = (flat.map (fun t => ({ t with data := none } : ProtoTopN))).length
        then ({ rows := c.table,
                topN := some (List.zipWith
                  (fun t od => ({ t with data := od } : ProtoTopN))
                  (flat.map (fun t => ({ t with data := none } : ProtoTopN)))
                  (flat.map (fun t => t.data))) } : ProtoSketch)
        else { rows := c.table,
               topN := some (flat.map
                 (fun t => ({ t with data := none } : ProtoTopN))) })
        = { rows := c.table, topN := some flat }
      rw [if_pos (by simp), hzip]
    rw [hre]
    have hmap : flat.map (fun t => (t.data.getD [], t.count))
        = (entriesOf m).map (fun e => (e.data, e.count)) := by
      rw [hflat, List.map_map]
      rfl
    have hfp : CMSketchFromProto hash { rows := c.table, topN := some flat }
        = Except.ok c := by
      show (if (flat.any fun t => decide (t.data = none)) = true
          then Except.error DecodeError.brokenTopN
          else Except.ok
            ({ depth := c.table.length,
               width := (c.table.headD []).length,
               count := protoCount c.table,
               defaultValue := 0,
               table := c.table,
               topN := some (buildTopNMap hash
                 (flat.map (fun t => (t.data.getD [], t.count)))) } : CMSketch))
        = Except.ok c
      rw [if_neg (by simp [hnone])]
      rw [hmap, buildTopNMap_eq_fold,
        buildTopNMap_regroup hash m [] hWF.1 hWF.2 (by simp),
        List.nil_append]
      rw [hdep, hwhead, hcount_eq, ← hdv, ← htn]
    rw [hfp]

/-- A singleton-bucket Top-N index for the C7 witness: one record for
the datum `[7]`, carrying its test hash `(7, 1)`. -/
def c7WitMap : TopNMap := [(7, [⟨7, 1, [7], 5⟩])]

/-- A concrete well-formed sketch for the C7 witness. -/
def c7Wit : CMSketch :=
  { depth := 1, width := 1, count := 5, defaultValue := 0,
    table := [[5]], topN := some c7WitMap }

/-- Witness for the amended C7. -/
theorem c7_roundtrip_witness :
    ∃ blob payload, encodeCMSketch c7Wit = some (blob, payload) ∧
      decodeCMSketch testHash blob payload = Except.ok (some c7Wit) ∧
      equalSketch (some c7Wit) (some c7Wit) = true :=
  c7_roundtrip testHash c7Wit (by decide) (by decide) (by decide)
    (by decide) (by decide) (by decide)
    (by
      intro m h
      have h2 : (some c7WitMap : Option TopNMap) = some m := h
      injection h2 with h3
      rw [← h3]
      exact ⟨by decide, by decide⟩)
    (by
      intro m h
      have h2 : (some c7WitMap : Option TopNMap) = some m := h
      injection h2 with h3
      rw [← h3]
      decide)

/-- With `width = 1` the first row already aborts the row loop: the cell
read succeeds (column `(h1 + 0·h2) mod 1 = 0` is in range) and the next
statement divides by `width - 1 = 0`. -/
theorem queryRows_w1 (count h1 h2 i mn : Nat) (row : List Nat)
    (rest : List (List Nat)) (hlen : row.length = 1) :
    queryRows count 1 h1 h2 i mn (row :: rest) = none := by
  have hj : cellIndex h1 h2 i 1 < row.length := by
    rw [hlen]
    exact Nat.mod_lt _ (by omega)
  have hget : row.get? (cellIndex h1 h2 i 1)
      = some (row.getD (cellIndex h1 h2 i 1) 0) := by
    rw [List.get?_eq_getElem?, List.getD_eq_getElem?_getD,
      List.getElem?_eq_getElem hj]
    rfl
  rw [queryRows, hget]
  simp

/-- On any well-shaped sketch of width 1 the estimator reaches the
division-by-zero branch and aborts. -/
theorem queryHashValue_w1 (c : CMSketch) (h1 h2 : Nat)
    (hdep : c.table.length = c.depth) (hd : 1 ≤ c.depth)
    (hrow : ∀ row ∈ c.table, row.length = c.width)
    (hw1 : c.width = 1) :
    queryHashValue c h1 h2 = none := by
  rcases hE : c.table with _ | ⟨row, rest⟩
  · rw [hE] at hdep
    simp at hdep
    omega
  · have hdep' : (row :: rest).length = c.depth := by
      rw [← hE]
      exact hdep
    have hr1 : row.length = 1 := by
      rw [← hw1]
      exact hrow row (by rw [hE]; exact List.mem_cons_self _ _)
    simp only [queryHashValue]
    rw [hw1, hE]
    rw [if_neg (by omega), if_neg (by omega), if_neg (by omega)]
    rw [queryRows_w1 _ _ _ _ _ _ _ hr1]

/-- A well-shaped width-2 sketch for the C10 witness. -/
def c10Sketch : CMSketch :=
  { depth := 1, width := 2, count := 4, defaultValue := 0,
    table := [[3, 1]], topN := none }

/-- C10: the noise term of `queryHashValue` divides by `width - 1` once
per row.  For every well-shaped sketch with `width ≥ 2` the divisor is
nonzero and the query is total (it returns a value); with `width = 1`
the query hits the division by zero and aborts; and `NewCMSketch(d, 1)`
is a constructible sketch of width 1 on which `QueryBytes` reaches that
branch. -/
theorem c10_noise_divisor (hash : List Nat → Nat × Nat)
    (c : CMSketch) (key : List Nat) (h1 h2 d : Nat)
    (hdep : c.table.length = c.depth) (hd : 1 ≤ c.depth)
    (hrow : ∀ row ∈ c.table, row.length = c.width)
    (hc32 : ∀ row ∈ c.table, ∀ x ∈ row, x < M32)
    (hcc : ∀ row ∈ c.table, ∀ x ∈ row, x ≤ c.count)
    (hcnt : c.count < M64) (hd1 : 1 ≤ d) :
    (2 ≤ c.width → ∃ r, queryHashValue c h1 h2 = some r) ∧
    (c.width = 1 → queryHashValue c h1 h2 = none) ∧
    (NewCMSketch d 1).width = 1 ∧
    QueryBytes hash (NewCMSketch d 1) key = none := by
  refine ⟨?_, ?_, rfl, ?_⟩
  · intro hw
    exact ⟨querySpecC1 c h1 h2,
      queryHashValue_spec c h1 h2 hdep hd hw hrow hc32 hcc hcnt⟩
  · intro hw1
    exact queryHashValue_w1 c h1 h2 hdep hd hrow hw1
  · have hq := queryHashValue_w1 (NewCMSketch d 1) (hash key).1 (hash key).2
      (by simp [NewCMSketch]) (by simpa [NewCMSketch] using hd1)
      (by
        intro row hr
        simp only [NewCMSketch] at hr
        rw [List.eq_of_mem_replicate hr]
        rfl)
      rfl
    show (match queryTopN (NewCMSketch d 1) (hash key).1 (hash key).2 key with
          | some cnt => some cnt
          | none => queryHashValue (NewCMSketch d 1) (hash key).1 (hash key).2)
        = none
    rw [show queryTopN (NewCMSketch d 1) (hash key).1 (hash key).2 key
        = none from rfl]
    exact hq

/-- Witness for C10 at a concrete width-2 sketch and `NewCMSketch 1 1`. -/
theorem c10_witness :
    (2 ≤ c10Sketch.width → ∃ r, queryHashValue c10Sketch 0 0 = some r) ∧
    (c10Sketch.width = 1 → queryHashValue c10Sketch 0 0 = none) ∧
    (NewCMSketch 1 1).width = 1 ∧
    QueryBytes testHash (NewCMSketch 1 1) [0] = none :=
  c10_noise_divisor testHash c10Sketch [0] 0 0 1
    (by decide) (by decide) (by decide) (by decide) (by decide)
    (by decide) (by decide)

end CMS
